import Mathlib

/-!
# Verification of the `g` version manager's core subsystem

This development gives a shallow embedding, in Lean 4, of the core logic of
the `g` Go-version manager: the filename decoder shared by the flat-index
collectors (`collector/internal`), the checksum-pairing conversion
(`Convert2Versions`), the collector registry (`collector.NewCollector`),
the version value type (`version.Semantify`, platform matching) and the
query engine (`version.Finder.Find` / `findLatest`).

Go strings are modelled as Lean `String`s, operated on through their
underlying character lists.  Byte indices and character indices coincide on
the ASCII data these functions handle; UTF-8 self-synchronization makes
prefix/suffix/substring tests on characters agree with Go's byte-wise
`strings.HasPrefix` / `HasSuffix` / `Contains` on valid UTF-8 input.
A Go `panic` (out-of-range string index) is modelled by `Option.none`;
Go functions returning `(T, error)` are modelled with `Except`/`Option`.
-/

namespace G

/-! ## Character-list models of the Go `strings` operations -/

/-- Model of Go `strings.HasPrefix` (character-wise). -/
def strHasPre (s pre : String) : Bool :=
  pre.data.isPrefixOf s.data

/-- Model of Go `strings.HasSuffix` (character-wise). -/
def strHasSuf (s suf : String) : Bool :=
  suf.data.reverse.isPrefixOf s.data.reverse

/-- Does `seg` occur as a contiguous segment of `l`? -/
def segIn (seg : List Char) : List Char → Bool
  | [] => seg.isEmpty
  | c :: cs => seg.isPrefixOf (c :: cs) || segIn seg cs

/-- Model of Go `strings.Contains s sub`. -/
def strContains (s sub : String) : Bool :=
  segIn sub.data s.data

/-- Model of Go `strings.TrimSpace` (leading and trailing whitespace removed). -/
def strTrimSpace (s : String) : String :=
  String.mk (((s.data.dropWhile Char.isWhitespace).reverse.dropWhile
      Char.isWhitespace).reverse)

/-- Model of Go `strings.TrimPrefix s pre`. -/
def strTrimPre (s pre : String) : String :=
  if strHasPre s pre then String.mk (s.data.drop pre.data.length) else s

/-- Split a character list on a separator character; mirrors Go
`strings.Split` for a one-character separator (always returns at least one
component; empty components are kept). -/
def chSplit (sep : Char) : List Char → List (List Char)
  | [] => [[]]
  | c :: cs =>
    if c = sep then [] :: chSplit sep cs
    else
      match chSplit sep cs with
      | [] => [[c]]
      | h :: t => (c :: h) :: t

/-- Like `chSplit`, splitting on every character satisfying `p`. -/
def chSplitP (p : Char → Bool) : List Char → List (List Char)
  | [] => [[]]
  | c :: cs =>
    if p c then [] :: chSplitP p cs
    else
      match chSplitP p cs with
      | [] => [[c]]
      | h :: t => (c :: h) :: t

/-- Model of Go `strings.Split s "."`. -/
def splitDots (s : String) : List String :=
  (chSplit '.' s.data).map String.mk

/-- Index (in characters) of the first occurrence of `c` in `l`, or `none`;
models Go `strings.Index` for a one-character needle (Go returns `-1` for
"absent", modelled here as `none`). -/
def chIndex (c : Char) : List Char → Option Nat
  | [] => none
  | d :: ds => if d = c then some 0 else (chIndex c ds).map (· + 1)

/-- Index (in characters) of the first occurrence of segment `seg` in `l`,
or `none`; models Go `strings.Index` for a multi-character needle. -/
def segIndex (seg : List Char) : List Char → Option Nat
  | [] => if seg.isEmpty then some 0 else none
  | c :: cs =>
    if seg.isPrefixOf (c :: cs) then some 0
    else (segIndex seg cs).map (· + 1)

/-- `strIndex s sub`: model of Go `strings.Index s sub`. -/
def strIndex (s sub : String) : Option Nat :=
  segIndex sub.data s.data

/-! ## Data model (`version.Package`, `version.PackageKind`)

`PackageKind` is a string type in the source (`type PackageKind string`
with constants `Source`, `Archive`, `Installer`); it is kept as `String`
here because the filename decoder also produces the out-of-table sentinel
`"Unknown"`. -/

/-- `version.SourceKind`. -/
def SourceKind : String := "Source"

/-- `version.ArchiveKind`. -/
def ArchiveKind : String := "Archive"

/-- `version.InstallerKind`. -/
def InstallerKind : String := "Installer"

/-- Model of `version.Package` (struct `Package` in `version/version.go`). -/
structure Package where
  fileName : String
  url : String
  kind : String
  os : String
  arch : String
  size : String
  checksum : String := ""
  checksumURL : String := ""
  algorithm : String := ""
deriving Repr, DecidableEq

/-! ## Filename decoder (`collector/internal`, type `GoFileItem`) -/

/-- Model of `internal.GoFileItem`: one row of a flat-index listing. -/
structure GoFileItem where
  fileName : String
  url : String
  size : String
deriving Repr, DecidableEq

/-- First character of a string, or `none` when empty.  Accessing the first
byte of an empty Go string (`s[0]`) panics; the `none` case marks that. -/
def firstChar (s : String) : Option Char :=
  s.data.head?

/-- Model of `GoFileItem.getGoVersion`.  The source is

```go
arr := strings.Split(strings.TrimPrefix(item.FileName, "go"), ".")
if len(arr) < 3 || !unicode.IsNumber(rune(arr[0][0])) { return "" }
if unicode.IsNumber(rune(arr[2][0])) { return arr[0]+"."+arr[1]+"."+arr[2] }
if unicode.IsNumber(rune(arr[1][0])) { return arr[0]+"."+arr[1] }
return arr[0]
```

`rune(arr[i][0])` panics when component `i` is empty; that panic is
modelled by `none` (note that `||` short-circuits, so when fewer than 3
components exist `arr[0][0]` is never evaluated).  `unicode.IsNumber` is
modelled by `Char.isDigit`, which agrees on ASCII input. -/
def GoFileItem.getGoVersion (item : GoFileItem) : Option String :=
  let arr := splitDots (strTrimPre item.fileName "go")
  if arr.length < 3 then
    some ""
  else
    match firstChar (arr.getD 0 "") with
    | none => none
    | some c0 =>
      if ¬ c0.isDigit then
        some ""
      else
        match firstChar (arr.getD 2 "") with
        | none => none
        | some c2 =>
          if c2.isDigit then
            some (arr.getD 0 "" ++ "." ++ arr.getD 1 "" ++ "." ++ arr.getD 2 "")
          else
            match firstChar (arr.getD 1 "") with
            | none => none
            | some c1 =>
              if c1.isDigit then some (arr.getD 0 "" ++ "." ++ arr.getD 1 "")
              else some (arr.getD 0 "")

/-- Model of `GoFileItem.isSHA256File`. -/
def GoFileItem.isSHA256File (item : GoFileItem) : Bool :=
  strHasSuf item.fileName ".sha256"

/-- Model of `GoFileItem.isPackageFile`. -/
def GoFileItem.isPackageFile (item : GoFileItem) : Bool :=
  strHasSuf item.fileName ".tar.gz" ||
  strHasSuf item.fileName ".pkg" ||
  strHasSuf item.fileName ".zip" ||
  strHasSuf item.fileName ".msi"

/-- Model of `GoFileItem.getKind` (suffix checks in source order). -/
def GoFileItem.getKind (item : GoFileItem) : String :=
  if strHasSuf item.fileName ".src.tar.gz" then SourceKind
  else if strHasSuf item.fileName ".tar.gz" || strHasSuf item.fileName ".zip" then
    ArchiveKind
  else if strHasSuf item.fileName ".pkg" || strHasSuf item.fileName ".msi" then
    InstallerKind
  else "Unknown"

/-- The `osMapping` table of `collector/internal`, as an association list in
source order.  The Go original is a map whose iteration order is
unspecified; the claims proved below only evaluate it on file names that
match at most one key, where every order yields the same result. -/
def osMapping : List (String × String) :=
  [("linux", "Linux"), ("darwin", "macOS"), ("windows", "Windows"),
   ("freebsd", "FreeBSD"), ("netbsd", "netbsd"), ("openbsd", "openbsd"),
   ("solaris", "solaris"), ("plan9", "plan9"), ("aix", "aix"),
   ("dragonfly", "dragonfly"), ("illumos", "illumos")]

/-- First entry of `table` whose key occurs in `name`; empty string when no
key matches (the fall-through `return ""` of `getOS`/`getArch`). -/
def lookupBySubstring (table : List (String × String)) (name : String) : String :=
  match table with
  | [] => ""
  | (k, v) :: rest =>
    if strContains name k then v else lookupBySubstring rest name

/-- Model of `GoFileItem.getOS`. -/
def GoFileItem.getOS (item : GoFileItem) : String :=
  lookupBySubstring osMapping item.fileName

/-- The `archMapping` table of `collector/internal`, in source order (same
remark about Go map iteration order as for `osMapping`). -/
def archMapping : List (String × String) :=
  [("-386.", "x86"), ("-amd64.", "x86-64"), ("-arm.", "ARMv6"),
   ("-arm64.", "ARM64"), ("-armv6l.", "ARMv6"), ("-ppc64.", "ppc64"),
   ("-ppc64le.", "ppc64le"), ("-mips.", "mips"), ("-mipsle.", "mipsle"),
   ("-mips64.", "mips64"), ("-mips64le.", "mips64le"), ("-s390x.", "s390x"),
   ("-riscv64.", "riscv64"), ("-loong64.", "loong64")]

/-- Model of `GoFileItem.getArch`. -/
def GoFileItem.getArch (item : GoFileItem) : String :=
  lookupBySubstring archMapping item.fileName

/-! ## Semantic versions

The repository delegates semantic-version parsing, precedence and
constraint checking to the `Masterminds/semver/v3` library, an external
dependency that is not vendored in the tree.  The definitions in this
section model that library: `parseSemVer` models `semver.NewVersion`
(lenient grammar: optional `v`, one to three numeric dot-components,
optional `-prerelease` and `+metadata`), `SemVer.cmp` models
`Version.Compare` (numeric triple, then prerelease precedence per the
semver specification: an empty prerelease outranks any non-empty one,
identifiers compare numerically when both numeric, numeric identifiers
rank below alphanumeric ones, otherwise byte-lexicographic). -/

/-- A parsed semantic version (`semver.Version` of Masterminds/semver). -/
structure SemVer where
  major : Nat
  minor : Nat
  patch : Nat
  pre : String
  metadata : String
deriving Repr, DecidableEq

/-- Is `l` a non-empty run of ASCII digits? -/
def allDigits (l : List Char) : Bool :=
  ¬ l.isEmpty && l.all Char.isDigit

/-- Numeric value of a digit run. -/
def digitsToNat (l : List Char) : Nat :=
  l.foldl (fun n c => n * 10 + (c.toNat - '0'.toNat)) 0

/-- Is `l` a valid prerelease/metadata identifier (`[0-9A-Za-z-]+`)? -/
def validIdentChunk (l : List Char) : Bool :=
  ¬ l.isEmpty && l.all (fun c => c.isAlphanum || c = '-')

/-- Are all dot-separated chunks of `l` valid identifiers? -/
def validDotIdents (l : List Char) : Bool :=
  (chSplit '.' l).all validIdentChunk

/-- Split at the first occurrence of `sep`: returns the part before it and,
when `sep` occurs, the part after it. -/
def breakAtFirst (sep : Char) : List Char → List Char × Option (List Char)
  | [] => ([], none)
  | c :: cs =>
    if c = sep then ([], some cs)
    else
      let r := breakAtFirst sep cs
      (c :: r.1, r.2)

/-- Model of `semver.NewVersion` (the lenient parser): `v?N(.N(.N)?)?`
followed by optional `-prerelease` and `+metadata`; absent minor/patch
default to 0. -/
def parseSemVer (s : String) : Option SemVer :=
  let l := match s.data with
    | 'v' :: rest => rest
    | l => l
  let (core, metaPart) := breakAtFirst '+' l
  let (nums, prePart) := breakAtFirst '-' core
  let metaOK := match metaPart with
    | none => true
    | some m => validDotIdents m
  let preOK := match prePart with
    | none => true
    | some p => validDotIdents p
  if ¬ (metaOK && preOK) then none
  else
    let pre := String.mk (prePart.getD [])
    let md := String.mk (metaPart.getD [])
    match chSplit '.' nums with
    | [a] =>
      if allDigits a then some ⟨digitsToNat a, 0, 0, pre, md⟩ else none
    | [a, b] =>
      if allDigits a && allDigits b then
        some ⟨digitsToNat a, digitsToNat b, 0, pre, md⟩
      else none
    | [a, b, c] =>
      if allDigits a && allDigits b && allDigits c then
        some ⟨digitsToNat a, digitsToNat b, digitsToNat c, pre, md⟩
      else none
    | _ => none

/-- Byte-lexicographic comparison of identifier chunks (Go string `<`). -/
def lexCmp : List Char → List Char → Ordering
  | [], [] => .eq
  | [], _ :: _ => .lt
  | _ :: _, [] => .gt
  | a :: as, b :: bs =>
    match compare a b with
    | .eq => lexCmp as bs
    | o => o

/-- Comparison of one prerelease identifier pair, modelling the library's
`comparePrePart`: equal chunks tie; a missing (empty) chunk ranks below a
present one; two numeric chunks compare by value (with the library's
convention that distinct strings of equal numeric value return `lt`); a
numeric chunk ranks below an alphanumeric one; otherwise
byte-lexicographic. -/
def preChunkCmp (a b : List Char) : Ordering :=
  if a = b then .eq
  else if a.isEmpty then .lt
  else if b.isEmpty then .gt
  else
    match allDigits a, allDigits b with
    | true, true => if digitsToNat a > digitsToNat b then .gt else .lt
    | true, false => .lt
    | false, true => .gt
    | false, false => lexCmp a b

/-- Pairwise comparison of two prerelease identifier lists; the shorter
list is padded with empty chunks (`comparePrerelease`). -/
def preListCmp : List (List Char) → List (List Char) → Ordering
  | [], [] => .eq
  | [], b :: bs =>
    match preChunkCmp [] b with
    | .eq => preListCmp [] bs
    | o => o
  | a :: as, [] =>
    match preChunkCmp a [] with
    | .eq => preListCmp as []
    | o => o
  | a :: as, b :: bs =>
    match preChunkCmp a b with
    | .eq => preListCmp as bs
    | o => o

/-- Prerelease precedence (`Version.Compare` after the numeric triple):
both empty tie; an empty prerelease outranks a non-empty one; otherwise
chunk-wise comparison of the dot-separated identifiers. -/
def preCmp (x y : String) : Ordering :=
  if x = "" && y = "" then .eq
  else if x = "" then .gt
  else if y = "" then .lt
  else preListCmp (chSplit '.' x.data) (chSplit '.' y.data)

/-- Model of `semver.Version.Compare`: numeric triple, then prerelease;
build metadata is ignored. -/
def SemVer.cmp (x y : SemVer) : Ordering :=
  match compare x.major y.major with
  | .eq =>
    match compare x.minor y.minor with
    | .eq =>
      match compare x.patch y.patch with
      | .eq => preCmp x.pre y.pre
      | o => o
    | o => o
  | o => o

/-- `LessThan` on semantic versions. -/
def svLt (x y : SemVer) : Bool :=
  x.cmp y == .lt

/-- `LessThan or Equal` on semantic versions (as precedence order). -/
def svLe (x y : SemVer) : Bool :=
  x.cmp y ≠ .gt

/-! ## `version.Semantify` and the `Version` value type -/

/-- Model of `version.Semantify` (`version/version.go`): insert a hyphen
before the first `alpha`, `beta` or `rc` substring (checked in that order)
when it occurs at a positive index, then parse as a semantic version.
`none` models the `MalformedVersion` error. -/
def Semantify (vname : String) : Option SemVer :=
  let idx : Nat :=
    if strContains vname "alpha" then (strIndex vname "alpha").getD 0
    else if strContains vname "beta" then (strIndex vname "beta").getD 0
    else if strContains vname "rc" then (strIndex vname "rc").getD 0
    else 0
  let vname' :=
    if idx > 0 then
      String.mk (vname.data.take idx ++ '-' :: vname.data.drop idx)
    else vname
  parseSemVer vname'

/-- Model of `version.Version`: the original display name, the derived
semantic version and the package list. -/
structure Version where
  name : String
  sv : SemVer
  pkgs : List Package
deriving Repr, DecidableEq

/-- Model of `version.New` (with the `WithPackages` option applied):
construction fails exactly when `Semantify` fails. -/
def Version.new (name : String) (pkgs : List Package) : Option Version :=
  (Semantify name).map fun sv => ⟨name, sv, pkgs⟩

/-- Model of the unexported `Version.match` method: some package's file
name contains both the target OS string and the target architecture string
as substrings. -/
def Version.platformMatch (v : Version) (goos goarch : String) : Bool :=
  v.pkgs.any fun p => strContains p.fileName goos && strContains p.fileName goarch

/-! ## Constraint expressions

Model of the `Masterminds/semver/v3` constraint language used by
`Finder.Find`: comma-separated AND groups joined by `||`, each constraint
an operator (`=`, `!=`, `>`, `<`, `>=`, `<=`, `~`, `^`, or none) applied to
a possibly partial version (missing or `x`/`X`/`*` minor/patch components),
plus hyphenated ranges `A - B` (rewritten to `>= A, <= B`).  A version
carrying a prerelease only matches a constraint whose version also carries
a prerelease. -/

/-- Constraint operators. -/
inductive COp
  | eq | neq | gt | lt | ge | le | tilde | caret
deriving Repr, DecidableEq

/-- One parsed constraint: operator, reference version (wildcard positions
zero-filled) and the dirty flags recording which components were missing
or wildcards. -/
structure CPart where
  op : COp
  con : SemVer
  minorDirty : Bool
  patchDirty : Bool
  dirty : Bool
deriving Repr, DecidableEq

/-- Is this component a version wildcard (`x`, `X` or `*`)? -/
def isWildPart (l : List Char) : Bool :=
  l = ['x'] || l = ['X'] || l = ['*']

/-- Parse the version token of a constraint, yielding the zero-filled
reference version and the `(minorDirty, patchDirty, dirty)` flags. -/
def parseConVersion (tok : List Char) : Option (SemVer × Bool × Bool × Bool) :=
  let tok := match tok with
    | 'v' :: rest => rest
    | l => l
  let (core, metaPart) := breakAtFirst '+' tok
  let (nums, prePart) := breakAtFirst '-' core
  let metaOK := match metaPart with
    | none => true
    | some m => validDotIdents m
  let preOK := match prePart with
    | none => true
    | some p => validDotIdents p
  if ¬ (metaOK && preOK) then none
  else
    let pre := String.mk (prePart.getD [])
    let md := String.mk (metaPart.getD [])
    match chSplit '.' nums with
    | [a] =>
      if isWildPart a then some (⟨0, 0, 0, pre, md⟩, false, false, true)
      else if allDigits a then
        some (⟨digitsToNat a, 0, 0, pre, md⟩, true, false, true)
      else none
    | [a, b] =>
      if isWildPart a then some (⟨0, 0, 0, pre, md⟩, false, false, true)
      else if allDigits a then
        if isWildPart b then
          some (⟨digitsToNat a, 0, 0, pre, md⟩, true, false, true)
        else if allDigits b then
          some (⟨digitsToNat a, digitsToNat b, 0, pre, md⟩, false, true, true)
        else none
      else none
    | [a, b, c] =>
      if isWildPart a then some (⟨0, 0, 0, pre, md⟩, false, false, true)
      else if allDigits a then
        if isWildPart b then
          if isWildPart c || allDigits c then
            some (⟨digitsToNat a, 0, 0, pre, md⟩, true, false, true)
          else none
        else if allDigits b then
          if isWildPart c then
            some (⟨digitsToNat a, digitsToNat b, 0, pre, md⟩, false, true, true)
          else if allDigits c then
            some (⟨digitsToNat a, digitsToNat b, digitsToNat c, pre, md⟩,
              false, false, false)
          else none
        else none
      else none
    | _ => none

/-- A version with a prerelease is not matched by a constraint whose
reference version has no prerelease. -/
def preRuleOK (c : CPart) (v : SemVer) : Bool :=
  ¬ (v.pre ≠ "" && c.con.pre = "")

/-- Tilde range: `~X.Y.Z` allows the same major and any minor/patch not
below the reference, the minor fixed unless it was itself unspecified;
a fully-zero non-dirty reference accepts everything. -/
def tildeCheck (c : CPart) (v : SemVer) : Bool :=
  if svLt v c.con then false
  else if c.con.major = 0 && c.con.minor = 0 && c.con.patch = 0 &&
      ¬ c.minorDirty && ¬ c.patchDirty then true
  else if v.major ≠ c.con.major then false
  else if v.minor > c.con.minor && ¬ c.minorDirty then false
  else true

/-- Caret range: same major for a positive major (or wildcard minor), else
same minor for a positive minor (or wildcard patch), else the exact patch. -/
def caretCheck (c : CPart) (v : SemVer) : Bool :=
  if svLt v c.con then false
  else if c.con.major > 0 || c.minorDirty then v.major = c.con.major
  else if v.major > 0 then false
  else if c.con.minor > 0 || c.patchDirty then v.minor = c.con.minor
  else v.minor = c.con.minor && v.patch = c.con.patch

/-- Strict greater-than; for a partial reference the unspecified
components must be exceeded at the next-higher position. -/
def gtCheck (c : CPart) (v : SemVer) : Bool :=
  if ¬ c.dirty then v.cmp c.con == .gt
  else if v.major > c.con.major then true
  else if v.major < c.con.major then false
  else if c.minorDirty then false
  else if c.patchDirty then v.minor > c.con.minor
  else false

/-- Non-strict less-than; a partial reference allows everything inside the
range it denotes. -/
def leCheck (c : CPart) (v : SemVer) : Bool :=
  if ¬ c.dirty then v.cmp c.con ≠ .gt
  else if v.major > c.con.major then false
  else if v.minor > c.con.minor && ¬ c.minorDirty then false
  else true

/-- Inequality against a partial reference compares only the specified
components. -/
def neqDirtyCheck (c : CPart) (v : SemVer) : Bool :=
  if c.con.major ≠ v.major then true
  else if c.con.minor ≠ v.minor && ¬ c.minorDirty then true
  else if c.minorDirty then false
  else if c.con.patch ≠ v.patch && ¬ c.patchDirty then true
  else false

/-- Check of a single constraint against a version. -/
def CPart.check (c : CPart) (v : SemVer) : Bool :=
  match c.op with
  | .neq =>
    if c.dirty then preRuleOK c v && neqDirtyCheck c v
    else v.cmp c.con ≠ .eq
  | .eq =>
    preRuleOK c v && (if c.dirty then tildeCheck c v else v.cmp c.con == .eq)
  | .gt => preRuleOK c v && gtCheck c v
  | .lt => preRuleOK c v && (v.cmp c.con == .lt)
  | .ge => preRuleOK c v && (v.cmp c.con ≠ .lt)
  | .le => preRuleOK c v && leCheck c v
  | .tilde => preRuleOK c v && tildeCheck c v
  | .caret => preRuleOK c v && caretCheck c v

/-- A parsed constraint expression: OR-groups of AND-ed constraints. -/
abbrev Constraint := List (List CPart)

/-- `Constraints.Check`: some OR-group has all its constraints satisfied. -/
def constraintCheck (cs : Constraint) (v : SemVer) : Bool :=
  cs.any fun grp => grp.all fun c => c.check v

/-- Strip a leading operator symbol from a token. -/
def parseOpChars : List Char → COp × List Char
  | '>' :: '=' :: r => (.ge, r)
  | '=' :: '>' :: r => (.ge, r)
  | '<' :: '=' :: r => (.le, r)
  | '=' :: '<' :: r => (.le, r)
  | '!' :: '=' :: r => (.neq, r)
  | '~' :: '>' :: r => (.tilde, r)
  | '~' :: r => (.tilde, r)
  | '^' :: r => (.caret, r)
  | '>' :: r => (.gt, r)
  | '<' :: r => (.lt, r)
  | '=' :: r => (.eq, r)
  | r => (.eq, r)

/-- Parse one operator-plus-version token. -/
def parseConTok (w : List Char) : Option CPart :=
  let (op, rest) := parseOpChars w
  (parseConVersion rest).map fun r => ⟨op, r.1, r.2.1, r.2.2.1, r.2.2.2⟩

/-- Split on whitespace, dropping empty words. -/
def wordsOf (l : List Char) : List (List Char) :=
  (chSplitP Char.isWhitespace l).filter (fun w => ¬ w.isEmpty)

/-- Parse one comma-separated segment of a constraint group: either a
single (possibly space-separated) operator/version token or a hyphenated
range `A - B`, which denotes `>= A` and `<= B`. -/
def parseCommaPart (part : List Char) : Option (List CPart) :=
  match wordsOf part with
  | [w] => (parseConTok w).map ([·])
  | [w1, w2] =>
    if (parseOpChars w1).2.isEmpty then (parseConTok (w1 ++ w2)).map ([·])
    else none
  | [w1, w2, w3] =>
    if w2 = ['-'] then
      match parseConVersion w1, parseConVersion w3 with
      | some r1, some r2 =>
        some [⟨.ge, r1.1, r1.2.1, r1.2.2.1, r1.2.2.2⟩,
              ⟨.le, r2.1, r2.2.1, r2.2.2.1, r2.2.2.2⟩]
      | _, _ => none
    else none
  | _ => none

/-- Split a character list on occurrences of `||`. -/
def splitOnBars : List Char → List (List Char)
  | [] => [[]]
  | '|' :: '|' :: rest => [] :: splitOnBars rest
  | c :: rest =>
    match splitOnBars rest with
    | [] => [[c]]
    | h :: t => (c :: h) :: t

/-- Model of `semver.NewConstraint`: split on `||` into OR-groups, split
each group on commas, parse every segment; any failure fails the parse
(`none` models the parse error). -/
def parseConstraint (s : String) : Option Constraint :=
  (splitOnBars s.data).mapM fun g =>
    ((chSplit ',' g).mapM parseCommaPart).map List.flatten

/-! ## The Finder (`version/finder.go`) -/

/-- The two error values `Finder.Find` can produce
(`errs.NewVersionNotFoundError` and `errs.NewPackageNotFoundError`). -/
inductive FindErr
  | versionNotFound (vname goos goarch : String)
  | packageNotFound (kind goos goarch : String)
deriving Repr, DecidableEq

/-- Model of `version.Finder`: target package kind, platform, and the
ascending-sorted version corpus. -/
structure Finder where
  kind : String
  goos : String
  goarch : String
  items : List Version
deriving Repr, DecidableEq

/-- `version.Latest`. -/
def Latest : String := "latest"

/-- Model of `Finder.findLatest`: an empty corpus yields
`VersionNotFound(latest)`; otherwise the corpus is scanned from the last
(highest) element downward — rendered as `find?` on the reversed list —
and the first platform match is returned; with none, `PackageNotFound`. -/
def Finder.findLatest (fdr : Finder) : Except FindErr Version :=
  if fdr.items.isEmpty then
    .error (.versionNotFound Latest fdr.goos fdr.goarch)
  else
    match fdr.items.reverse.find? (fun v => v.platformMatch fdr.goos fdr.goarch) with
    | some v => .ok v
    | none => .error (.packageNotFound fdr.kind fdr.goos fdr.goarch)

/-- Model of `Finder.Find`.  The two descending `for` loops of the source
are rendered as `find?` over the reversed corpus; the `versionFound` flag
of the constraint loop is only consulted after a full scan that returned
no platform match, where it equals `any` of the constraint check. -/
def Finder.find (fdr : Finder) (vname : String) : Except FindErr Version :=
  if vname = Latest then fdr.findLatest
  else
    match fdr.items.reverse.find?
        (fun v => v.name == vname && v.platformMatch fdr.goos fdr.goarch) with
    | some v => .ok v
    | none =>
      match parseConstraint vname with
      | none => .error (.versionNotFound vname fdr.goos fdr.goarch)
      | some cs =>
        match fdr.items.reverse.find?
            (fun v => constraintCheck cs v.sv && v.platformMatch fdr.goos fdr.goarch) with
        | some v => .ok v
        | none =>
          if fdr.items.any (fun v => constraintCheck cs v.sv) then
            .error (.packageNotFound fdr.kind fdr.goos fdr.goarch)
          else
            .error (.versionNotFound vname fdr.goos fdr.goarch)

/-! ## Grouping and checksum pairing (`internal.Convert2Versions`)

The `pkgMap` of the source is a Go map from extracted version string to
package list; it is modelled as an association list in insertion order
(iteration order of the Go map does not affect any per-key property). -/

/-- Modelled from the spec: the fixed checksum-algorithm label
`checksum.SHA256` — the `pkg/checksum` package itself is not in the tree;
the spec fixes the label attached on a checksum-sidecar match to
`"SHA256"`. -/
def checksumSHA256 : String := "SHA256"

/-- The package record built for a package file
(the literal in the `isPackageFile` branch of `Convert2Versions`). -/
def packageOf (item : GoFileItem) : Package :=
  { fileName := item.fileName
    url := item.url
    kind := item.getKind
    os := item.getOS
    arch := item.getArch
    size := item.size
    checksum := ""
    checksumURL := ""
    algorithm := "" }

/-- The `isSHA256File` branch of `Convert2Versions`: every already-grouped
package whose file name is a string-prefix of the sidecar's file name gets
the fixed algorithm label and the sidecar's URL as checksum URL; other
packages are untouched (the `continue`). -/
def attachChecksum (shaName shaURL : String) (pkgs : List Package) : List Package :=
  pkgs.map fun pkg =>
    if strHasPre shaName pkg.fileName then
      { pkg with algorithm := checksumSHA256, checksumURL := shaURL }
    else pkg

/-- Update the value of key `k` (if present) in an association list. -/
def mapUpdate (k : String) (f : List Package → List Package) :
    List (String × List Package) → List (String × List Package)
  | [] => []
  | (k', v) :: rest =>
    if k' = k then (k', f v) :: rest else (k', v) :: mapUpdate k f rest

/-- One iteration of the grouping loop of `Convert2Versions`: extract the
version key (a `none` result models the `getGoVersion` panic on an empty
component), materialize the key's entry, then append a package record or
pair a checksum sidecar.  Records that are neither package files nor
sidecars only materialize their key. -/
def convertStep (m : List (String × List Package)) (item : GoFileItem) :
    Option (List (String × List Package)) :=
  match item.getGoVersion with
  | none => none
  | some ver =>
    let m := if (m.lookup ver).isSome then m else m ++ [(ver, [])]
    if item.isPackageFile then
      some (mapUpdate ver (· ++ [packageOf item]) m)
    else if item.isSHA256File then
      some (mapUpdate ver (attachChecksum item.fileName item.url) m)
    else
      some m

/-- The grouping/pairing phase of `Convert2Versions`: the loop over all
records threading `pkgMap`. -/
def groupGoFileItems (items : List GoFileItem) :
    Option (List (String × List Package)) :=
  items.foldlM convertStep []

/-- The construction loop of `Convert2Versions`: one `version.New` per
grouped key, with any construction failure aborting the whole batch
(`return nil, err`). -/
def buildVersions : List (String × List Package) → Option (List Version)
  | [] => some []
  | (vname, pkgs) :: rest =>
    match Version.new vname pkgs with
    | none => none
    | some v => (buildVersions rest).map (v :: ·)

/-- Model of `internal.Convert2Versions`: group and pair all records, then
construct one `Version` per key.  The source ends with
`sort.Sort(version.Collection(vers))` — ascending sort, whose `Collection`
type lives outside the tree — which permutes a successful result only; it
is omitted here, and the properties proved below (about failure and about
per-key contents) are unaffected by it.  A Go map's iteration order is
unspecified, so the source's construction-loop order is arbitrary; whether
an error is returned does not depend on that order, since any single
failing key fails the batch. -/
def convert2Versions (items : List GoFileItem) : Option (List Version) :=
  (groupGoFileItems items).bind buildVersions

/-! ## Collector registry (`collector.NewCollector`) -/

/-- Which adapter the registry selects (`official.Name`,
`fancyindex.Name`, `autoindex.Name`). -/
inductive CollectorKind
  | official | fancyindex | autoindex
deriving Repr, DecidableEq

/-- `errs.ErrCollectorNotFound`. -/
inductive CollectorErr
  | collectorNotFound
deriving Repr, DecidableEq

/-- `collector.OfficialDownloadPageURL`. -/
def OfficialDownloadPageURL : String := "https://go.dev/dl/"

/-- `collector.OriginalOfficialDownloadPageURL`. -/
def OriginalOfficialDownloadPageURL : String := "https://golang.org/dl/"

/-- `collector.CNDownloadPageURL`. -/
def CNDownloadPageURL : String := "https://golang.google.cn/dl/"

/-- `collector.AliYunDownloadPageURL`. -/
def AliYunDownloadPageURL : String := "https://mirrors.aliyun.com/golang/"

/-- `collector.HUSTDownloadPageURL`. -/
def HUSTDownloadPageURL : String := "https://mirrors.hust.edu.cn/golang/"

/-- `collector.NJUDownloadPageURL`. -/
def NJUDownloadPageURL : String := "https://mirrors.nju.edu.cn/golang/"

/-- `collector.USTCDownloadPageURL`. -/
def USTCDownloadPageURL : String := "https://mirrors.ustc.edu.cn/golang/"

/-- The per-candidate normalization of `NewCollector`: trim whitespace,
enforce a trailing slash. -/
def normalizeURL (s : String) : String :=
  let t := strTrimSpace s
  if strHasSuf t "/" then t else t ++ "/"

/-- The fixed well-known-URL table of `NewCollector` (its second
`switch`): exact match against the known mirror URLs. -/
def tableResolve (u : String) : Option (CollectorKind × String) :=
  if u = OfficialDownloadPageURL || u = OriginalOfficialDownloadPageURL ||
      u = CNDownloadPageURL then
    some (.official, u)
  else if u = AliYunDownloadPageURL || u = HUSTDownloadPageURL ||
      u = NJUDownloadPageURL then
    some (.fancyindex, u)
  else if u = USTCDownloadPageURL then
    some (.autoindex, u)
  else none

/-- Resolution of one normalized candidate: a `name|URL` pair with a `|`
at a positive index before the last character selects by explicit adapter
name (an unknown name skips the candidate without consulting the table);
otherwise the well-known-URL table is consulted.  The selection result is
the adapter kind and the URL the adapter would be constructed with;
adapter construction itself (one HTTP fetch) is outside this model. -/
def resolveCandidate (u : String) : Option (CollectorKind × String) :=
  match strIndex u "|" with
  | some idx =>
    if 0 < idx ∧ idx < u.data.length - 1 then
      let cname := strTrimSpace (String.mk (u.data.take idx))
      let curl := strTrimSpace (String.mk (u.data.drop (idx + 1)))
      if cname = "official" then some (.official, curl)
      else if cname = "fancyindex" then some (.fancyindex, curl)
      else if cname = "autoindex" then some (.autoindex, curl)
      else none
    else tableResolve u
  | none => tableResolve u

/-- The candidate loop of `NewCollector`, with the in-place mutation of
the argument slice made explicit: the second component is the slice as the
caller observes it after the call — every candidate examined up to and
including the resolving one replaced by its normalized form, the rest
untouched. -/
def collectLoop : List String → Option (CollectorKind × String) × List String
  | [] => (none, [])
  | u :: rest =>
    let u' := normalizeURL u
    match resolveCandidate u' with
    | some r => (some r, u' :: rest)
    | none =>
      let r := collectLoop rest
      (r.1, u' :: r.2)

/-- Model of `collector.NewCollector`.  An empty slice (or a singleton
empty string — the source condition `size == 0 || (size == 1 && urls[0]
== "")`, which holds exactly for `[]` and `[""]`) is replaced — by
rebinding the local variable, leaving the caller's slice untouched — with
the canonical official URL; then the first candidate that resolves wins,
and with none the `CollectorNotFound` error is returned.  The second
component is the caller's slice after the call. -/
def newCollector (urls : List String) :
    Except CollectorErr (CollectorKind × String) × List String :=
  if urls = [] ∨ urls = [""] then
    match (collectLoop [OfficialDownloadPageURL]).1 with
    | some r => (.ok r, urls)
    | none => (.error .collectorNotFound, urls)
  else
    match collectLoop urls with
    | (some r, st) => (.ok r, st)
    | (none, st) => (.error .collectorNotFound, st)

/-- The `Name` constant of each adapter package (`official.Name`,
`fancyindex.Name`, `autoindex.Name`). -/
def collectorName : CollectorKind → String
  | .official => "official"
  | .fancyindex => "fancyindex"
  | .autoindex => "autoindex"

/-- The ascending sort contract of `version.Collection`: producers hand
`Finder` a corpus sorted ascending by semantic-version precedence. -/
abbrev sortedAscending (items : List Version) : Prop :=
  items.Pairwise fun a b => svLe a.sv b.sv = true

/-! ## General lemmas -/

/-- A successful `find?` splits the list at the first hit. -/
theorem find?_split {α : Type} {p : α → Bool} {l : List α} {v : α}
    (h : l.find? p = some v) :
    ∃ l₁ l₂, l = l₁ ++ v :: l₂ ∧ (∀ u ∈ l₁, p u = false) ∧ p v = true := by
  induction l with
  | nil => simp at h
  | cons a t ih =>
    rw [List.find?_cons] at h
    split at h
    · cases h
      exact ⟨[], t, rfl, by simp, by assumption⟩
    · obtain ⟨l₁, l₂, rfl, h₁, h₂⟩ := ih h
      exact ⟨a :: l₁, l₂, rfl, by simp_all, h₂⟩

/-- Two prefixes of one list agree on their first element. -/
theorem head_eq_of_isPrefixOf {a b : Char} {l₁ l₂ l : List Char}
    (h₁ : (a :: l₁).isPrefixOf l = true) (h₂ : (b :: l₂).isPrefixOf l = true) :
    a = b := by
  cases l with
  | nil => simp [List.isPrefixOf] at h₁
  | cons c t =>
    simp only [List.isPrefixOf, Bool.and_eq_true, beq_iff_eq] at h₁ h₂
    exact h₁.1.trans h₂.1.symm

/-- Suffix tests against suffixes with distinct final characters are
mutually exclusive. -/
theorem strHasSuf_false_of_last_ne (s su₁ su₂ : String) (a b : Char)
    (r₁ r₂ : List Char)
    (e₁ : su₁.data.reverse = a :: r₁) (e₂ : su₂.data.reverse = b :: r₂)
    (hne : a ≠ b) (h₁ : strHasSuf s su₁ = true) : strHasSuf s su₂ = false := by
  unfold strHasSuf at h₁ ⊢
  rw [e₁] at h₁
  rw [e₂]
  cases h₂ : (b :: r₂).isPrefixOf s.data.reverse
  · rfl
  · exact absurd (head_eq_of_isPrefixOf h₁ h₂) hne

/-- Transitivity of the suffix test. -/
theorem strHasSuf_trans (s su₁ su₂ : String)
    (h : strHasSuf s su₁ = true) (hsub : strHasSuf su₁ su₂ = true) :
    strHasSuf s su₂ = true := by
  unfold strHasSuf at *
  rw [List.isPrefixOf_iff_prefix] at h hsub ⊢
  exact hsub.trans h

/-- A checksum sidecar (`.sha256`) is never a package file (all package
suffixes end in a different character). -/
theorem sha256_not_packageFile {it : GoFileItem} (h : it.isSHA256File = true) :
    it.isPackageFile = false := by
  unfold GoFileItem.isSHA256File at h
  unfold GoFileItem.isPackageFile
  rw [strHasSuf_false_of_last_ne it.fileName ".sha256" ".tar.gz" '6' 'z' _ _
      rfl rfl (by decide) h,
    strHasSuf_false_of_last_ne it.fileName ".sha256" ".pkg" '6' 'g' _ _
      rfl rfl (by decide) h,
    strHasSuf_false_of_last_ne it.fileName ".sha256" ".zip" '6' 'p' _ _
      rfl rfl (by decide) h,
    strHasSuf_false_of_last_ne it.fileName ".sha256" ".msi" '6' 'i' _ _
      rfl rfl (by decide) h]
  rfl

/-- Non-empty strings have a first character. -/
theorem firstChar_isSome {s : String} (h : s ≠ "") : (firstChar s).isSome = true := by
  cases s with
  | mk data =>
    cases data with
    | nil => exact absurd rfl h
    | cons c cs => rfl

/-! ## Claims about the filename decoder -/

/-- **C4**: the file name `go1.21.4.linux-amd64.tar.gz` decodes to version
`1.21.4`, OS label `Linux`, architecture label `x86-64` and kind Archive;
`go1.21.4.src.tar.gz` decodes to kind Source; and in general kind is
determined by suffix: `.src.tar.gz` gives Source, `.tar.gz` or `.zip`
gives Archive, `.pkg` or `.msi` gives Installer, and any other suffix
gives the sentinel `"Unknown"` rather than being filtered out. -/
theorem C4_filename_decode :
    ((⟨"go1.21.4.linux-amd64.tar.gz", "", ""⟩ : GoFileItem).getGoVersion
        = some "1.21.4"
      ∧ (⟨"go1.21.4.linux-amd64.tar.gz", "", ""⟩ : GoFileItem).getOS = "Linux"
      ∧ (⟨"go1.21.4.linux-amd64.tar.gz", "", ""⟩ : GoFileItem).getArch = "x86-64"
      ∧ (⟨"go1.21.4.linux-amd64.tar.gz", "", ""⟩ : GoFileItem).getKind = ArchiveKind)
    ∧ (⟨"go1.21.4.src.tar.gz", "", ""⟩ : GoFileItem).getKind = SourceKind
    ∧ (∀ it : GoFileItem, strHasSuf it.fileName ".src.tar.gz" = true →
        it.getKind = SourceKind)
    ∧ (∀ it : GoFileItem, strHasSuf it.fileName ".src.tar.gz" = false →
        (strHasSuf it.fileName ".tar.gz" = true ∨ strHasSuf it.fileName ".zip" = true) →
        it.getKind = ArchiveKind)
    ∧ (∀ it : GoFileItem,
        (strHasSuf it.fileName ".pkg" = true ∨ strHasSuf it.fileName ".msi" = true) →
        it.getKind = InstallerKind)
    ∧ (∀ it : GoFileItem,
        strHasSuf it.fileName ".tar.gz" = false → strHasSuf it.fileName ".zip" = false →
        strHasSuf it.fileName ".pkg" = false → strHasSuf it.fileName ".msi" = false →
        it.getKind = "Unknown") := by
  refine ⟨⟨by decide, by decide, by decide, by decide⟩, by decide, ?_, ?_, ?_, ?_⟩
  · intro it h
    unfold GoFileItem.getKind
    rw [h]
    rfl
  · intro it h₁ h₂
    unfold GoFileItem.getKind
    rw [h₁]
    rcases h₂ with h₂ | h₂ <;> rw [h₂] <;> simp
  · intro it h
    unfold GoFileItem.getKind
    rcases h with h | h
    · rw [strHasSuf_false_of_last_ne it.fileName ".pkg" ".src.tar.gz" 'g' 'z' _ _
          rfl rfl (by decide) h,
        strHasSuf_false_of_last_ne it.fileName ".pkg" ".tar.gz" 'g' 'z' _ _
          rfl rfl (by decide) h,
        strHasSuf_false_of_last_ne it.fileName ".pkg" ".zip" 'g' 'p' _ _
          rfl rfl (by decide) h, h]
      simp
    · rw [strHasSuf_false_of_last_ne it.fileName ".msi" ".src.tar.gz" 'i' 'z' _ _
          rfl rfl (by decide) h,
        strHasSuf_false_of_last_ne it.fileName ".msi" ".tar.gz" 'i' 'z' _ _
          rfl rfl (by decide) h,
        strHasSuf_false_of_last_ne it.fileName ".msi" ".zip" 'i' 'p' _ _
          rfl rfl (by decide) h, h]
      simp
  · intro it h₁ h₂ h₃ h₄
    have hsrc : strHasSuf it.fileName ".src.tar.gz" = false := by
      cases hs : strHasSuf it.fileName ".src.tar.gz"
      · rfl
      · exact absurd (strHasSuf_trans it.fileName ".src.tar.gz" ".tar.gz" hs (by decide))
          (by simp [h₁])
    unfold GoFileItem.getKind
    rw [hsrc, h₁, h₂, h₃, h₄]
    rfl

/-- Witness for **C4**: the suffix rules applied at an installer file and
at a signature file (kind `Unknown`). -/
theorem C4_filename_decode_witness :
    (⟨"go1.21.4.darwin-amd64.pkg", "", ""⟩ : GoFileItem).getKind = InstallerKind
    ∧ (⟨"go1.21.4.linux-amd64.tar.gz.asc", "", ""⟩ : GoFileItem).getKind = "Unknown" :=
  ⟨C4_filename_decode.2.2.2.2.1 _ (Or.inl (by decide)),
   C4_filename_decode.2.2.2.2.2 _ (by decide) (by decide) (by decide) (by decide)⟩

/-- **C9**: `getGoVersion` is not total: on file names that pass the
flat-index filter (start with `go`, not a directory) but contain an empty
examined dot-component — `go.1.2.3` (empty first component) and
`go1.2..tar.gz` (empty third component) — the source indexes the first
byte of an empty string (out-of-range panic, modelled as `none`); it
returns normally whenever the examined components are non-empty (in
particular whenever fewer than three components exist, or the first three
are all non-empty). -/
theorem C9_getGoVersion_nontotal :
    (⟨"go.1.2.3", "", ""⟩ : GoFileItem).getGoVersion = none
    ∧ (⟨"go1.2..tar.gz", "", ""⟩ : GoFileItem).getGoVersion = none
    ∧ strHasPre "go.1.2.3" "go" = true ∧ strHasSuf "go.1.2.3" "/" = false
    ∧ strHasPre "go1.2..tar.gz" "go" = true ∧ strHasSuf "go1.2..tar.gz" "/" = false
    ∧ (∀ it : GoFileItem,
        ((splitDots (strTrimPre it.fileName "go")).length < 3 ∨
          ((splitDots (strTrimPre it.fileName "go")).getD 0 "" ≠ "" ∧
           (splitDots (strTrimPre it.fileName "go")).getD 1 "" ≠ "" ∧
           (splitDots (strTrimPre it.fileName "go")).getD 2 "" ≠ "")) →
        (it.getGoVersion).isSome = true) := by
  refine ⟨by decide, by decide, by decide, by decide, by decide, by decide, ?_⟩
  intro it hcond
  unfold GoFileItem.getGoVersion
  rcases hcond with hlt | ⟨h0, h1, h2⟩
  · rw [if_pos hlt]
    rfl
  · by_cases hlt : (splitDots (strTrimPre it.fileName "go")).length < 3
    · rw [if_pos hlt]
      rfl
    · rw [if_neg hlt]
      obtain ⟨c0, hc0⟩ := Option.isSome_iff_exists.mp (firstChar_isSome h0)
      obtain ⟨c1, hc1⟩ := Option.isSome_iff_exists.mp (firstChar_isSome h1)
      obtain ⟨c2, hc2⟩ := Option.isSome_iff_exists.mp (firstChar_isSome h2)
      rw [hc0, hc1, hc2]
      by_cases hd0 : c0.isDigit
      · simp only [hd0, not_true_eq_false, if_false]
        by_cases hd2 : c2.isDigit
        · simp [hd2]
        · simp only [hd2, if_false]
          by_cases hd1 : c1.isDigit <;> simp [hd1]
      · simp [hd0]

/-- Witness for **C9**: the totality part applied at a regular file name. -/
theorem C9_getGoVersion_nontotal_witness :
    ((⟨"go1.21.4.linux-amd64.tar.gz", "", ""⟩ : GoFileItem).getGoVersion).isSome = true :=
  C9_getGoVersion_nontotal.2.2.2.2.2.2 _ (Or.inr (by decide))

/-- `mapUpdate` rewrites exactly the looked-up value of its key. -/
theorem lookup_mapUpdate (k k' : String) (f : List Package → List Package)
    (m : List (String × List Package)) :
    (mapUpdate k f m).lookup k' =
      if k' = k then (m.lookup k').map f else m.lookup k' := by
  induction m with
  | nil => split <;> rfl
  | cons a rest ih =>
    obtain ⟨ka, va⟩ := a
    by_cases hk : ka = k
    · subst hk
      simp only [mapUpdate, if_pos rfl]
      by_cases hk' : k' = ka
      · subst hk'
        simp [List.lookup]
      · simp [List.lookup, beq_false_of_ne hk', hk']
    · simp only [mapUpdate, if_neg hk]
      by_cases hk' : k' = ka
      · subst hk'
        simp [List.lookup, if_neg hk]
      · simp only [List.lookup, beq_false_of_ne hk']
        exact ih

/-- Appending a fresh empty entry changes only that key's lookup. -/
theorem lookup_append_empty (m : List (String × List Package)) (ver k : String) :
    (m ++ [(ver, [])]).lookup k =
      match m.lookup k with
      | some v => some v
      | none => if k = ver then some ([] : List Package) else none := by
  induction m with
  | nil =>
    by_cases h : k = ver
    · simp [List.lookup, h]
    · simp [List.lookup, beq_false_of_ne h, h]
  | cons a rest ih =>
    obtain ⟨ka, va⟩ := a
    by_cases h : k = ka
    · subst h
      simp [List.lookup]
    · simpa [List.lookup, beq_false_of_ne h] using ih

/-- A looked-up binding is a member of the association list. -/
theorem mem_of_lookup_eq_some {k : String} {v : List Package} :
    ∀ {m : List (String × List Package)}, List.lookup k m = some v → (k, v) ∈ m := by
  intro m
  induction m with
  | nil => intro h; cases h
  | cons a t ih =>
    intro h
    obtain ⟨k', v'⟩ := a
    by_cases hk : k = k'
    · subst hk
      have hv : List.lookup k ((k, v') :: t) = some v' := by simp [List.lookup]
      rw [hv] at h
      injection h with h
      rw [← h]
      exact List.mem_cons_self _ _
    · have hs : List.lookup k ((k', v') :: t) = List.lookup k t := by
        simp [List.lookup, beq_false_of_ne hk]
      rw [hs] at h
      exact List.mem_cons_of_mem _ (ih h)

/-- `version.New` rejects the empty name: `Semantify("")` cannot parse. -/
theorem version_new_empty (pkgs : List Package) : Version.new "" pkgs = none := by
  simp [Version.new, show Semantify "" = none from rfl]

/-- The construction loop fails as soon as the empty version key is
present, since a `Version` cannot be built from the empty name. -/
theorem buildVersions_none_of_empty_key :
    ∀ {m : List (String × List Package)} {pkgs : List Package},
    ("", pkgs) ∈ m → buildVersions m = none := by
  intro m
  induction m with
  | nil => intro pkgs h; cases h
  | cons a t ih =>
    intro pkgs hmem
    obtain ⟨k, v⟩ := a
    rcases List.mem_cons.mp hmem with heq | hmem'
    · cases heq
      simp [buildVersions, version_new_empty]
    · cases hvn : Version.new k v with
      | none => simp [buildVersions, hvn]
      | some ver => simp [buildVersions, hvn, ih hmem']

/-- One grouping step keeps every existing key and materializes the
record's extracted version key. -/
theorem convertStep_keys {m m' : List (String × List Package)}
    {it : GoFileItem} {ver : String} (hv : it.getGoVersion = some ver)
    (hstep : convertStep m it = some m') :
    ∀ k, ((List.lookup k m).isSome = true ∨ k = ver) →
      (List.lookup k m').isSome = true := by
  intro k hk
  have hk1 : (List.lookup k (if (List.lookup ver m).isSome = true then m
      else m ++ [(ver, [])])).isSome = true := by
    rcases hk with hk | rfl
    · by_cases hs : (List.lookup ver m).isSome = true
      · rw [if_pos hs]
        exact hk
      · rw [if_neg hs, lookup_append_empty]
        cases hmk : List.lookup k m with
        | some v => simp
        | none => rw [hmk] at hk; simp at hk
    · by_cases hs : (List.lookup k m).isSome = true
      · rw [if_pos hs]
        exact hs
      · rw [if_neg hs, lookup_append_empty]
        rw [Option.not_isSome_iff_eq_none] at hs
        rw [hs]
        simp
  simp only [convertStep, hv] at hstep
  by_cases hp : it.isPackageFile = true
  · rw [if_pos hp] at hstep
    injection hstep with hstep
    rw [← hstep, lookup_mapUpdate]
    by_cases hkv : k = ver
    · rw [if_pos hkv]
      obtain ⟨v, hv'⟩ := Option.isSome_iff_exists.mp hk1
      rw [hv']
      simp
    · rw [if_neg hkv]
      exact hk1
  · rw [if_neg hp] at hstep
    by_cases hsha : it.isSHA256File = true
    · rw [if_pos hsha] at hstep
      injection hstep with hstep
      rw [← hstep, lookup_mapUpdate]
      by_cases hkv : k = ver
      · rw [if_pos hkv]
        obtain ⟨v, hv'⟩ := Option.isSome_iff_exists.mp hk1
        rw [hv']
        simp
      · rw [if_neg hkv]
        exact hk1
    · rw [if_neg hsha] at hstep
      injection hstep with hstep
      rw [← hstep]
      exact hk1

/-- The grouping loop never drops a key. -/
theorem foldlM_keeps_key : ∀ (items : List GoFileItem)
    {acc m : List (String × List Package)} {k : String},
    (List.lookup k acc).isSome = true →
    List.foldlM convertStep acc items = some m →
    (List.lookup k m).isSome = true := by
  intro items
  induction items with
  | nil =>
    intro acc m k hk hfold
    rw [List.foldlM_nil] at hfold
    injection hfold with h
    rw [← h]
    exact hk
  | cons a rest ih =>
    intro acc m k hk hfold
    rw [List.foldlM_cons] at hfold
    cases hstep : convertStep acc a with
    | none => rw [hstep] at hfold; simp at hfold
    | some acc' =>
      rw [hstep] at hfold
      rw [show (some acc' >>= fun init => List.foldlM convertStep init rest)
          = List.foldlM convertStep acc' rest from rfl] at hfold
      cases hv : a.getGoVersion with
      | none => simp [convertStep, hv] at hstep
      | some ver => exact ih (convertStep_keys hv hstep k (Or.inl hk)) hfold

/-- Every record's extracted version key is present in the grouping
result. -/
theorem foldlM_key_of_mem : ∀ (items : List GoFileItem)
    {acc m : List (String × List Package)} {it : GoFileItem} {ver : String},
    it ∈ items → it.getGoVersion = some ver →
    List.foldlM convertStep acc items = some m →
    (List.lookup ver m).isSome = true := by
  intro items
  induction items with
  | nil =>
    intro acc m it ver hmem _ _
    cases hmem
  | cons a rest ih =>
    intro acc m it ver hmem hv hfold
    rw [List.foldlM_cons] at hfold
    cases hstep : convertStep acc a with
    | none => rw [hstep] at hfold; simp at hfold
    | some acc' =>
      rw [hstep] at hfold
      rw [show (some acc' >>= fun init => List.foldlM convertStep init rest)
          = List.foldlM convertStep acc' rest from rfl] at hfold
      rcases List.mem_cons.mp hmem with rfl | hmem'
      · exact foldlM_keeps_key rest (convertStep_keys hv hstep ver (Or.inr rfl)) hfold
      · exact ih hmem' hv hfold

/-- **C5** (counterexample to the claim as stated, both for the "declares
no version" clause and for the "record is discarded" clause): for
`go.1.2.3` the split yields four components, the first of which is empty;
the claim's premise "the first component does not start with a digit"
holds (it has no first character at all), but the code does not declare
"no version" — it panics on the empty component (modelled as `none`).
And for `gobootstrap.tar.gz` — three components, the first starting with
`b` — "no version" is declared (the empty version string); but the record
is not discarded: it is grouped under the empty version key, and the whole
`Convert2Versions` batch then fails (were the record discarded, the
conversion would succeed with the record dropped, as it does on the empty
batch). -/
theorem C5_getGoVersion_counterexample :
    (splitDots (strTrimPre "go.1.2.3" "go")).length = 4
    ∧ firstChar ((splitDots (strTrimPre "go.1.2.3" "go")).getD 0 "") = none
    ∧ (⟨"go.1.2.3", "", ""⟩ : GoFileItem).getGoVersion = none
    ∧ (⟨"go.1.2.3", "", ""⟩ : GoFileItem).getGoVersion ≠ some ""
    ∧ (⟨"gobootstrap.tar.gz", "u", "1MB"⟩ : GoFileItem).getGoVersion = some ""
    ∧ convert2Versions [⟨"gobootstrap.tar.gz", "u", "1MB"⟩] = none
    ∧ convert2Versions [⟨"gobootstrap.tar.gz", "u", "1MB"⟩] ≠ some []
    ∧ convert2Versions [] = some [] := by
  refine ⟨by decide, by decide, by decide, by decide, by decide, by decide,
    by decide, by decide⟩

/-- **C5** (amended on the two points the counterexample forces:
restricted to file names whose examined components are non-empty, since an
empty examined component panics — see C9 — and with "the record is
discarded" replaced by what the code does with a no-version record):
version extraction strips the `go` prefix and splits on `.`; with fewer
than 3 components, or a first component not starting with a digit, it
declares "no version" (the empty version string) — and such a record is
not discarded: its empty version key makes the whole `Convert2Versions`
batch fail, since no `Version` can be constructed from the empty name;
otherwise it greedily takes the first 1–3 components that start with
digits, joined by `.` — three when the third component starts with a
digit, two when only the second does, one otherwise. -/
theorem C5_getGoVersion_rule :
    (∀ it : GoFileItem, (splitDots (strTrimPre it.fileName "go")).length < 3 →
      it.getGoVersion = some "")
    ∧ (∀ it : GoFileItem, 3 ≤ (splitDots (strTrimPre it.fileName "go")).length →
        ∀ c0, firstChar ((splitDots (strTrimPre it.fileName "go")).getD 0 "") = some c0 →
        c0.isDigit = false → it.getGoVersion = some "")
    ∧ (∀ it : GoFileItem, 3 ≤ (splitDots (strTrimPre it.fileName "go")).length →
        ∀ c0, firstChar ((splitDots (strTrimPre it.fileName "go")).getD 0 "") = some c0 →
        c0.isDigit = true →
        ∀ c2, firstChar ((splitDots (strTrimPre it.fileName "go")).getD 2 "") = some c2 →
          (c2.isDigit = true →
            it.getGoVersion = some ((splitDots (strTrimPre it.fileName "go")).getD 0 ""
              ++ "." ++ (splitDots (strTrimPre it.fileName "go")).getD 1 ""
              ++ "." ++ (splitDots (strTrimPre it.fileName "go")).getD 2 ""))
          ∧ (c2.isDigit = false →
              ∀ c1, firstChar ((splitDots (strTrimPre it.fileName "go")).getD 1 "") = some c1 →
                (c1.isDigit = true →
                  it.getGoVersion = some ((splitDots (strTrimPre it.fileName "go")).getD 0 ""
                    ++ "." ++ (splitDots (strTrimPre it.fileName "go")).getD 1 ""))
                ∧ (c1.isDigit = false →
                  it.getGoVersion = some ((splitDots (strTrimPre it.fileName "go")).getD 0 ""))))
    ∧ (∀ items : List GoFileItem,
        (∃ it ∈ items, it.getGoVersion = some "") →
        convert2Versions items = none) := by
  refine ⟨?_, ?_, ?_, ?_⟩
  · intro it hlt
    unfold GoFileItem.getGoVersion
    rw [if_pos hlt]
  · intro it hge c0 hc0 hd0
    unfold GoFileItem.getGoVersion
    rw [if_neg (by omega), hc0]
    simp [hd0]
  · intro it hge c0 hc0 hd0 c2 hc2
    constructor
    · intro hd2
      unfold GoFileItem.getGoVersion
      rw [if_neg (by omega), hc0, hc2]
      simp [hd0, hd2]
    · intro hd2 c1 hc1
      constructor
      · intro hd1
        unfold GoFileItem.getGoVersion
        rw [if_neg (by omega), hc0, hc2, hc1]
        simp [hd0, hd2, hd1]
      · intro hd1
        unfold GoFileItem.getGoVersion
        rw [if_neg (by omega), hc0, hc2, hc1]
        simp [hd0, hd2, hd1]
  · rintro items ⟨it, hmem, hv⟩
    unfold convert2Versions
    cases hg : groupGoFileItems items with
    | none => rfl
    | some m =>
      rw [Option.some_bind]
      have hg' : List.foldlM convertStep [] items = some m := hg
      have hkey := foldlM_key_of_mem items hmem hv hg'
      obtain ⟨pkgs, hpk⟩ := Option.isSome_iff_exists.mp hkey
      exact buildVersions_none_of_empty_key (mem_of_lookup_eq_some hpk)

/-- Witness for **C5**: the three-component rule at
`go1.21.4.darwin-amd64.tar.gz`, the two-component rule at
`go1.21rc2.windows-386.msi`, and the batch failure on a record with fewer
than three components. -/
theorem C5_getGoVersion_rule_witness :
    (⟨"go1.21.4.darwin-amd64.tar.gz", "", ""⟩ : GoFileItem).getGoVersion = some "1.21.4"
    ∧ (⟨"go1.21rc2.windows-386.msi", "", ""⟩ : GoFileItem).getGoVersion = some "1.21rc2"
    ∧ convert2Versions [⟨"go1.2", "u", "1MB"⟩] = none := by
  refine ⟨?_, ?_, ?_⟩
  · have h := C5_getGoVersion_rule.2.2.1 ⟨"go1.21.4.darwin-amd64.tar.gz", "", ""⟩
      (by decide) '1' (by decide) (by decide) '4' (by decide)
    exact h.1 (by decide)
  · have h := C5_getGoVersion_rule.2.2.1 ⟨"go1.21rc2.windows-386.msi", "", ""⟩
      (by decide) '1' (by decide) (by decide) 'w' (by decide)
    exact (h.2 (by decide) '2' (by decide)).1 (by decide)
  · exact C5_getGoVersion_rule.2.2.2 [⟨"go1.2", "u", "1MB"⟩]
      ⟨⟨"go1.2", "u", "1MB"⟩, by decide, by decide⟩

/-! ## Claims about semantic-version ordering -/

/-- **C8**: the semantic versions derived by `Semantify` (which inserts a
hyphen before an `alpha`/`beta`/`rc` substring so the name parses as a
semver prerelease) order consistently with semantic-version precedence: a
prerelease sorts below the final release of the same numeric version, and
in particular `1.10beta2` < `1.19beta1` < `1.21rc4` < `1.21.0`. -/
theorem C8_semantify_ordering :
    (∃ a b c d, Semantify "1.10beta2" = some a ∧ Semantify "1.19beta1" = some b
      ∧ Semantify "1.21rc4" = some c ∧ Semantify "1.21.0" = some d
      ∧ svLt a b = true ∧ svLt b c = true ∧ svLt c d = true)
    ∧ (∀ x y : SemVer, x.major = y.major → x.minor = y.minor → x.patch = y.patch →
        x.pre ≠ "" → y.pre = "" → svLt x y = true) := by
  constructor
  · exact ⟨⟨1, 10, 0, "beta2", ""⟩, ⟨1, 19, 0, "beta1", ""⟩, ⟨1, 21, 0, "rc4", ""⟩,
      ⟨1, 21, 0, "", ""⟩, by decide, by decide, by decide, by decide,
      by decide, by decide, by decide⟩
  · intro x y h₁ h₂ h₃ hx hy
    unfold svLt SemVer.cmp
    rw [h₁, h₂, h₃, Nat.compare_eq_eq.mpr rfl, Nat.compare_eq_eq.mpr rfl,
      Nat.compare_eq_eq.mpr rfl]
    unfold preCmp
    rw [hy]
    simp only [decide_eq_true_eq]
    rw [if_neg (by simp [hx]), if_neg (by simpa using hx), if_pos (by simp)]
    rfl

/-- Witness for **C8**: the prerelease-below-release rule applied at
`1.21.0-rc4` versus `1.21.0`. -/
theorem C8_semantify_ordering_witness :
    svLt ⟨1, 21, 0, "rc4", ""⟩ ⟨1, 21, 0, "", ""⟩ = true :=
  C8_semantify_ordering.2 ⟨1, 21, 0, "rc4", ""⟩ ⟨1, 21, 0, "", ""⟩
    rfl rfl rfl (by decide) rfl

/-! ## Claims about grouping and checksum pairing -/

/-- The sidecar update leaves every package in place, setting the
algorithm label and checksum URL exactly on the prefix matches and
leaving every other field — in particular the checksum value — alone. -/
theorem attachChecksum_forall₂ (shaName shaURL : String) (pkgs : List Package) :
    List.Forall₂ (fun old new =>
      (strHasPre shaName old.fileName = true →
        new = { old with algorithm := "SHA256", checksumURL := shaURL })
      ∧ (strHasPre shaName old.fileName = false → new = old)
      ∧ new.checksum = old.checksum)
      pkgs (attachChecksum shaName shaURL pkgs) := by
  induction pkgs with
  | nil => exact List.Forall₂.nil
  | cons p rest ih =>
    refine List.Forall₂.cons ?_ ih
    cases h : strHasPre shaName p.fileName with
    | true => simp [attachChecksum, checksumSHA256, h]
    | false => simp [attachChecksum, checksumSHA256, h]

/-- **C6**: in `Convert2Versions`, a record ending in `.sha256` is matched
against every package already grouped under the same extracted version
string whose file name is a string-prefix of the sidecar's name; each
match gets algorithm label `"SHA256"` and the sidecar's URL as checksum
URL, the checksum value itself stays untouched, non-matching packages and
other version keys are unchanged. -/
theorem C6_checksum_pairing (m : List (String × List Package))
    (item : GoFileItem) (ver : String)
    (hsha : strHasSuf item.fileName ".sha256" = true)
    (hver : item.getGoVersion = some ver) :
    ∃ m', convertStep m item = some m'
      ∧ (∀ k, k ≠ ver → m'.lookup k = m.lookup k)
      ∧ ∃ pkgs', m'.lookup ver = some pkgs'
        ∧ List.Forall₂ (fun old new =>
            (strHasPre item.fileName old.fileName = true →
              new = { old with algorithm := "SHA256", checksumURL := item.url })
            ∧ (strHasPre item.fileName old.fileName = false → new = old)
            ∧ new.checksum = old.checksum)
          ((m.lookup ver).getD []) pkgs' := by
  have hpf : item.isPackageFile = false := sha256_not_packageFile hsha
  refine ⟨mapUpdate ver (attachChecksum item.fileName item.url)
    (if (m.lookup ver).isSome then m else m ++ [(ver, [])]), ?_, ?_, ?_⟩
  · unfold convertStep
    rw [hver]
    simp only [hpf, Bool.false_eq_true, if_false]
    have hsha' : item.isSHA256File = true := hsha
    simp only [hsha', if_true]
  · intro k hk
    rw [lookup_mapUpdate, if_neg hk]
    by_cases hs : (m.lookup ver).isSome
    · rw [if_pos hs]
    · rw [if_neg hs, lookup_append_empty]
      cases hmk : List.lookup k m with
      | some v => rfl
      | none => simp [hk]
  · refine ⟨attachChecksum item.fileName item.url ((m.lookup ver).getD []), ?_,
      attachChecksum_forall₂ item.fileName item.url ((m.lookup ver).getD [])⟩
    rw [lookup_mapUpdate, if_pos rfl]
    by_cases hs : (m.lookup ver).isSome
    · rw [if_pos hs]
      obtain ⟨v, hv⟩ := Option.isSome_iff_exists.mp hs
      rw [hv]
      rfl
    · rw [if_neg hs, lookup_append_empty]
      rw [Option.not_isSome_iff_eq_none] at hs
      rw [hs]
      simp

/-- Witness for **C6**: pairing a concrete sidecar with a grouped package. -/
theorem C6_checksum_pairing_witness :
    ∃ m', convertStep
        [("1.21.4", [⟨"go1.21.4.linux-amd64.tar.gz", "https://x/a", "Archive",
          "Linux", "x86-64", "64MB", "", "", ""⟩])]
        ⟨"go1.21.4.linux-amd64.tar.gz.sha256", "https://x/a.sha256", "1KB"⟩ = some m'
      ∧ (∀ k, k ≠ "1.21.4" → m'.lookup k =
          (List.lookup k [("1.21.4", [⟨"go1.21.4.linux-amd64.tar.gz", "https://x/a",
            "Archive", "Linux", "x86-64", "64MB", "", "", ""⟩])]))
      ∧ ∃ pkgs', m'.lookup "1.21.4" = some pkgs'
        ∧ List.Forall₂ (fun old new =>
            (strHasPre "go1.21.4.linux-amd64.tar.gz.sha256" old.fileName = true →
              new = { old with algorithm := "SHA256", checksumURL := "https://x/a.sha256" })
            ∧ (strHasPre "go1.21.4.linux-amd64.tar.gz.sha256" old.fileName = false → new = old)
            ∧ new.checksum = old.checksum)
          [⟨"go1.21.4.linux-amd64.tar.gz", "https://x/a", "Archive",
            "Linux", "x86-64", "64MB", "", "", ""⟩] pkgs' := by
  have h := C6_checksum_pairing
    [("1.21.4", [⟨"go1.21.4.linux-amd64.tar.gz", "https://x/a", "Archive",
      "Linux", "x86-64", "64MB", "", "", ""⟩])]
    ⟨"go1.21.4.linux-amd64.tar.gz.sha256", "https://x/a.sha256", "1KB"⟩
    "1.21.4" (by decide) (by decide)
  simpa using h

/-! ## Claims about the Finder -/

/-- Chunk comparison is reflexive. -/
theorem preListCmp_self (l : List (List Char)) : preListCmp l l = .eq := by
  induction l with
  | nil => simp [preListCmp]
  | cons a t ih => simp [preListCmp, preChunkCmp, ih]

/-- `Version.Compare` is reflexive. -/
theorem svCmp_self (x : SemVer) : x.cmp x = .eq := by
  unfold SemVer.cmp
  rw [Nat.compare_eq_eq.mpr rfl, Nat.compare_eq_eq.mpr rfl, Nat.compare_eq_eq.mpr rfl]
  unfold preCmp
  by_cases h : x.pre = ""
  · simp [h]
  · rw [if_neg (by simp [h]), if_neg (by simpa using h), if_neg (by simpa using h)]
    exact preListCmp_self _

/-- Precedence order is reflexive. -/
theorem svLe_refl (x : SemVer) : svLe x x = true := by
  unfold svLe
  rw [svCmp_self]
  decide

/-- In an ascending-sorted corpus, a hit of `find?` on the reversed list
is a maximal hit: it satisfies the predicate and dominates every element
of the corpus satisfying it. -/
theorem reverse_find?_max {p : Version → Bool} {l : List Version} {v : Version}
    (hs : sortedAscending l) (h : l.reverse.find? p = some v) :
    p v = true ∧ v ∈ l ∧ ∀ u ∈ l, p u = true → svLe u.sv v.sv = true := by
  obtain ⟨r₁, r₂, hsplit, hr₁, hpv⟩ := find?_split h
  have hl : l = r₂.reverse ++ v :: r₁.reverse := by
    have := congrArg List.reverse hsplit
    simpa using this
  refine ⟨hpv, by rw [hl]; exact List.mem_append.mpr (Or.inr (List.mem_cons_self _ _)), ?_⟩
  intro u hu hpu
  rw [hl] at hu hs
  rcases List.mem_append.mp hu with hu | hu
  · exact (List.pairwise_append.mp hs).2.2 u hu v (List.mem_cons_self _ _)
  · rcases List.mem_cons.mp hu with rfl | hu
    · exact svLe_refl _
    · exact absurd hpu (by simp [hr₁ u (List.mem_reverse.mp hu)])

/-- **C3**: `Find("latest")` scans from highest to lowest and returns the
first version with a package whose file name contains both the target OS
and architecture strings; an empty corpus gives `VersionNotFound` for
`latest`, and a non-empty corpus with no platform match gives
`PackageNotFound` carrying the configured kind, OS and architecture. -/
theorem C3_findLatest (fdr : Finder) :
    (fdr.items = [] →
      fdr.findLatest = .error (.versionNotFound "latest" fdr.goos fdr.goarch))
    ∧ (fdr.items ≠ [] →
        (∀ v ∈ fdr.items, v.platformMatch fdr.goos fdr.goarch = false) →
        fdr.findLatest = .error (.packageNotFound fdr.kind fdr.goos fdr.goarch))
    ∧ (∀ v, fdr.findLatest = .ok v →
        v.platformMatch fdr.goos fdr.goarch = true
        ∧ ∃ l₁ l₂, fdr.items = l₁ ++ v :: l₂
          ∧ ∀ u ∈ l₂, u.platformMatch fdr.goos fdr.goarch = false) := by
  refine ⟨?_, ?_, ?_⟩
  · intro h
    simp [Finder.findLatest, h, Latest]
  · intro hne hall
    have hnone : fdr.items.reverse.find?
        (fun v => v.platformMatch fdr.goos fdr.goarch) = none :=
      List.find?_eq_none.mpr fun x hx => by
        simp [hall x (List.mem_reverse.mp hx)]
    unfold Finder.findLatest
    rw [if_neg (by simp [hne]), hnone]
  · intro v hok
    unfold Finder.findLatest at hok
    split at hok
    · cases hok
    · cases hf : fdr.items.reverse.find?
          (fun v => v.platformMatch fdr.goos fdr.goarch) with
      | none => rw [hf] at hok; cases hok
      | some w =>
        rw [hf] at hok
        cases hok
        obtain ⟨r₁, r₂, hsplit, hr₁, hpv⟩ := find?_split hf
        have hl : fdr.items = r₂.reverse ++ v :: r₁.reverse := by
          have := congrArg List.reverse hsplit
          simpa using this
        exact ⟨hpv, r₂.reverse, r₁.reverse, hl,
          fun u hu => by simpa using hr₁ u (List.mem_reverse.mp hu)⟩

/-- Witness for **C3**: the empty corpus and a corpus with no
Windows/ARM64 package. -/
theorem C3_findLatest_witness :
    (Finder.mk "Archive" "darwin" "arm64" []).findLatest
      = .error (.versionNotFound "latest" "darwin" "arm64")
    ∧ (Finder.mk "Installer" "windows" "arm64"
        [⟨"1.16.1", ⟨1, 16, 1, "", ""⟩,
          [⟨"go1.16.1.darwin-amd64.tar.gz", "u", "Archive", "macOS", "x86-64",
            "124MB", "", "", ""⟩]⟩]).findLatest
      = .error (.packageNotFound "Installer" "windows" "arm64") :=
  ⟨(C3_findLatest _).1 rfl,
   (C3_findLatest _).2.1 (by decide) (by decide)⟩

/-- **C1**: with an expression other than `latest` on which the
exact-name pass fails, `Find` yields: `VersionNotFound` when the
expression does not parse as a constraint (never a syntax error);
`PackageNotFound` (with the configured kind) when some version satisfies
the parsed constraint but none of the satisfying versions matches the
platform; `VersionNotFound` when no version satisfies the constraint. -/
theorem C1_find_error_taxonomy (fdr : Finder) (expr : String)
    (hlat : expr ≠ "latest")
    (_hsorted : sortedAscending fdr.items)
    (hexact : ∀ v ∈ fdr.items,
      ¬(v.name = expr ∧ v.platformMatch fdr.goos fdr.goarch = true)) :
    (parseConstraint expr = none →
      fdr.find expr = .error (.versionNotFound expr fdr.goos fdr.goarch))
    ∧ (∀ cs, parseConstraint expr = some cs →
        ((∃ v ∈ fdr.items, constraintCheck cs v.sv = true) →
          (∀ v ∈ fdr.items, constraintCheck cs v.sv = true →
            v.platformMatch fdr.goos fdr.goarch = false) →
          fdr.find expr = .error (.packageNotFound fdr.kind fdr.goos fdr.goarch))
        ∧ ((∀ v ∈ fdr.items, constraintCheck cs v.sv = false) →
          fdr.find expr = .error (.versionNotFound expr fdr.goos fdr.goarch))) := by
  have hlatest : ¬(expr = Latest) := hlat
  have hnone : fdr.items.reverse.find?
      (fun v => v.name == expr && v.platformMatch fdr.goos fdr.goarch) = none :=
    List.find?_eq_none.mpr fun x hx => by
      have hthis := hexact x (List.mem_reverse.mp hx)
      cases hn : (x.name == expr) with
      | false => simp [hn]
      | true =>
        cases hp : x.platformMatch fdr.goos fdr.goarch with
        | false => simp [hn, hp]
        | true => exact absurd ⟨beq_iff_eq.mp hn, hp⟩ hthis
  constructor
  · intro hparse
    unfold Finder.find
    rw [if_neg hlatest, hnone, hparse]
  · intro cs hparse
    constructor
    · intro hsome hall
      have hcnone : fdr.items.reverse.find?
          (fun v => constraintCheck cs v.sv && v.platformMatch fdr.goos fdr.goarch)
            = none :=
        List.find?_eq_none.mpr fun x hx => by
          cases hc : constraintCheck cs x.sv with
          | false => simp [hc]
          | true => simp [hc, hall x (List.mem_reverse.mp hx) hc]
      have hany : fdr.items.any (fun v => constraintCheck cs v.sv) = true := by
        obtain ⟨v, hv, hcv⟩ := hsome
        exact List.any_eq_true.mpr ⟨v, hv, hcv⟩
      unfold Finder.find
      rw [if_neg hlatest, hnone, hparse]
      simp [hcnone, hany]
    · intro hnoneCheck
      have hcnone : fdr.items.reverse.find?
          (fun v => constraintCheck cs v.sv && v.platformMatch fdr.goos fdr.goarch)
            = none :=
        List.find?_eq_none.mpr fun x hx => by
          simp [hnoneCheck x (List.mem_reverse.mp hx)]
      have hany : fdr.items.any (fun v => constraintCheck cs v.sv) = false := by
        simp only [List.any_eq_false]
        intro x hx
        simp [hnoneCheck x hx]
      unfold Finder.find
      rw [if_neg hlatest, hnone, hparse]
      simp [hcnone, hany]

/-- Witness for **C1**: a one-version corpus (`1.18.10`, Linux package
only) queried for the unparseable `voidint`, for `~1.18` (satisfied but no
Darwin/ARM64 package) and for `~1.15` (satisfied by nothing). -/
theorem C1_find_error_taxonomy_witness :
    (Finder.mk "Archive" "darwin" "arm64"
        [⟨"1.18.10", ⟨1, 18, 10, "", ""⟩,
          [⟨"go1.18.10.linux-amd64.tar.gz", "u", "Archive", "Linux", "x86-64",
            "s", "", "", ""⟩]⟩]).find "voidint"
      = .error (.versionNotFound "voidint" "darwin" "arm64")
    ∧ (Finder.mk "Archive" "darwin" "arm64"
        [⟨"1.18.10", ⟨1, 18, 10, "", ""⟩,
          [⟨"go1.18.10.linux-amd64.tar.gz", "u", "Archive", "Linux", "x86-64",
            "s", "", "", ""⟩]⟩]).find "~1.18"
      = .error (.packageNotFound "Archive" "darwin" "arm64")
    ∧ (Finder.mk "Archive" "darwin" "arm64"
        [⟨"1.18.10", ⟨1, 18, 10, "", ""⟩,
          [⟨"go1.18.10.linux-amd64.tar.gz", "u", "Archive", "Linux", "x86-64",
            "s", "", "", ""⟩]⟩]).find "~1.15"
      = .error (.versionNotFound "~1.15" "darwin" "arm64") :=
  ⟨(C1_find_error_taxonomy _ "voidint" (by decide) (by decide) (by decide)).1
      (by decide),
   ((C1_find_error_taxonomy _ "~1.18" (by decide) (by decide) (by decide)).2
      [[⟨.tilde, ⟨1, 18, 0, "", ""⟩, false, true, true⟩]] (by decide)).1
      (by decide) (by decide),
   ((C1_find_error_taxonomy _ "~1.15" (by decide) (by decide) (by decide)).2
      [[⟨.tilde, ⟨1, 15, 0, "", ""⟩, false, true, true⟩]] (by decide)).2
      (by decide)⟩

/-- **C2**: on an ascending-sorted corpus, `Find` with an expression other
than `latest` first runs the exact-name pass: it returns a version whose
name equals the expression verbatim AND that matches the platform, and
among all such versions the highest one — exact-name matches failing the
platform check are skipped.  Only when no version passes the exact-name
pass is the expression parsed as a constraint, and the constraint pass
likewise returns the highest constraint-satisfying version with a platform
match — never a lower or arbitrary one. -/
theorem C2_find_highest (fdr : Finder) (expr : String)
    (hlat : expr ≠ "latest") (hsorted : sortedAscending fdr.items) :
    ((∃ v ∈ fdr.items, v.name = expr ∧ v.platformMatch fdr.goos fdr.goarch = true) →
      ∃ v, fdr.find expr = .ok v ∧ v.name = expr
        ∧ v.platformMatch fdr.goos fdr.goarch = true
        ∧ ∀ u ∈ fdr.items, u.name = expr →
            u.platformMatch fdr.goos fdr.goarch = true → svLe u.sv v.sv = true)
    ∧ ((∀ v ∈ fdr.items, ¬(v.name = expr ∧ v.platformMatch fdr.goos fdr.goarch = true)) →
        ∀ cs, parseConstraint expr = some cs →
        (∃ v ∈ fdr.items, constraintCheck cs v.sv = true
          ∧ v.platformMatch fdr.goos fdr.goarch = true) →
        ∃ v, fdr.find expr = .ok v ∧ constraintCheck cs v.sv = true
          ∧ v.platformMatch fdr.goos fdr.goarch = true
          ∧ ∀ u ∈ fdr.items, constraintCheck cs u.sv = true →
              u.platformMatch fdr.goos fdr.goarch = true → svLe u.sv v.sv = true) := by
  have hlatest : ¬(expr = Latest) := hlat
  constructor
  · intro hex
    have hissome : (fdr.items.reverse.find?
        (fun v => v.name == expr && v.platformMatch fdr.goos fdr.goarch)).isSome := by
      rw [List.find?_isSome]
      obtain ⟨v, hv, hn, hp⟩ := hex
      exact ⟨v, List.mem_reverse.mpr hv, by simp [hn, hp]⟩
    obtain ⟨w, hw⟩ := Option.isSome_iff_exists.mp hissome
    obtain ⟨hpw, hwmem, hmax⟩ := reverse_find?_max hsorted hw
    simp only [Bool.and_eq_true, beq_iff_eq] at hpw
    refine ⟨w, ?_, hpw.1, hpw.2, ?_⟩
    · unfold Finder.find
      rw [if_neg hlatest, hw]
    · intro u hu hn hp
      exact hmax u hu (by simp [hn, hp])
  · intro hexact cs hparse hex
    have hnone : fdr.items.reverse.find?
        (fun v => v.name == expr && v.platformMatch fdr.goos fdr.goarch) = none :=
      List.find?_eq_none.mpr fun x hx => by
        have hthis := hexact x (List.mem_reverse.mp hx)
        cases hn : (x.name == expr) with
        | false => simp [hn]
        | true =>
          cases hp : x.platformMatch fdr.goos fdr.goarch with
          | false => simp [hn, hp]
          | true => exact absurd ⟨beq_iff_eq.mp hn, hp⟩ hthis
    have hissome : (fdr.items.reverse.find?
        (fun v => constraintCheck cs v.sv && v.platformMatch fdr.goos fdr.goarch)).isSome := by
      rw [List.find?_isSome]
      obtain ⟨v, hv, hc, hp⟩ := hex
      exact ⟨v, List.mem_reverse.mpr hv, by simp [hc, hp]⟩
    obtain ⟨w, hw⟩ := Option.isSome_iff_exists.mp hissome
    obtain ⟨hpw, hwmem, hmax⟩ := reverse_find?_max hsorted hw
    simp only [Bool.and_eq_true] at hpw
    refine ⟨w, ?_, hpw.1, hpw.2, ?_⟩
    · unfold Finder.find
      rw [if_neg hlatest, hnone, hparse]
      simp [hw]
    · intro u hu hc hp
      exact hmax u hu (by simp [hc, hp])

/-- Witness for **C2**: the exact-name pass on `{1.20.0, 1.20.1}` (both
with a Darwin/ARM64 package) queried for `1.20.1`, and the constraint pass
on `{1.18.9, 1.18.10}` queried for `~1.18`. -/
theorem C2_find_highest_witness :
    (∃ v, (Finder.mk "Archive" "darwin" "arm64"
        [⟨"1.20.0", ⟨1, 20, 0, "", ""⟩,
          [⟨"go1.20.0.darwin-arm64.tar.gz", "u", "Archive", "macOS", "ARM64",
            "s", "", "", ""⟩]⟩,
         ⟨"1.20.1", ⟨1, 20, 1, "", ""⟩,
          [⟨"go1.20.1.darwin-arm64.tar.gz", "u", "Archive", "macOS", "ARM64",
            "s", "", "", ""⟩]⟩]).find "1.20.1" = .ok v
      ∧ v.name = "1.20.1"
      ∧ v.platformMatch "darwin" "arm64" = true
      ∧ ∀ u ∈ [⟨"1.20.0", ⟨1, 20, 0, "", ""⟩,
          [⟨"go1.20.0.darwin-arm64.tar.gz", "u", "Archive", "macOS", "ARM64",
            "s", "", "", ""⟩]⟩,
         (⟨"1.20.1", ⟨1, 20, 1, "", ""⟩,
          [⟨"go1.20.1.darwin-arm64.tar.gz", "u", "Archive", "macOS", "ARM64",
            "s", "", "", ""⟩]⟩ : Version)], u.name = "1.20.1" →
          u.platformMatch "darwin" "arm64" = true → svLe u.sv v.sv = true)
    ∧ (∃ v, (Finder.mk "Archive" "darwin" "arm64"
        [⟨"1.18.9", ⟨1, 18, 9, "", ""⟩,
          [⟨"go1.18.9.darwin-arm64.tar.gz", "u", "Archive", "macOS", "ARM64",
            "s", "", "", ""⟩]⟩,
         ⟨"1.18.10", ⟨1, 18, 10, "", ""⟩,
          [⟨"go1.18.10.darwin-arm64.tar.gz", "u", "Archive", "macOS", "ARM64",
            "s", "", "", ""⟩]⟩]).find "~1.18" = .ok v
      ∧ constraintCheck [[⟨.tilde, ⟨1, 18, 0, "", ""⟩, false, true, true⟩]] v.sv = true
      ∧ v.platformMatch "darwin" "arm64" = true
      ∧ ∀ u ∈ [⟨"1.18.9", ⟨1, 18, 9, "", ""⟩,
          [⟨"go1.18.9.darwin-arm64.tar.gz", "u", "Archive", "macOS", "ARM64",
            "s", "", "", ""⟩]⟩,
         (⟨"1.18.10", ⟨1, 18, 10, "", ""⟩,
          [⟨"go1.18.10.darwin-arm64.tar.gz", "u", "Archive", "macOS", "ARM64",
            "s", "", "", ""⟩]⟩ : Version)],
          constraintCheck [[⟨.tilde, ⟨1, 18, 0, "", ""⟩, false, true, true⟩]] u.sv = true →
          u.platformMatch "darwin" "arm64" = true → svLe u.sv v.sv = true) :=
  ⟨(C2_find_highest _ "1.20.1" (by decide) (by decide)).1 (by decide),
   (C2_find_highest _ "~1.18" (by decide) (by decide)).2 (by decide)
      [[⟨.tilde, ⟨1, 18, 0, "", ""⟩, false, true, true⟩]] (by decide) (by decide)⟩

/-! ## Claims about the collector registry -/

/-- `dropWhile` never lengthens a list. -/
theorem length_dropWhile_le (p : Char → Bool) (l : List Char) :
    (l.dropWhile p).length ≤ l.length :=
  List.Sublist.length_le (List.dropWhile_sublist p)

/-- `dropWhile` that loses no length strips nothing. -/
theorem dropWhile_eq_self_of_length {p : Char → Bool} :
    ∀ {l : List Char}, (l.dropWhile p).length = l.length → l.dropWhile p = l := by
  intro l
  induction l with
  | nil => intro _; rfl
  | cons c t ih =>
    intro h
    cases hc : p c with
    | false => simp [List.dropWhile_cons, hc]
    | true =>
      rw [List.dropWhile_cons, if_pos (by simp [hc])] at h ⊢
      have := length_dropWhile_le p t
      simp at h
      omega

/-- An identity `dropWhile` certifies that the head fails the predicate. -/
theorem head_false_of_dropWhile_id {p : Char → Bool} {l : List Char}
    (h : l.dropWhile p = l) : ∀ c, l.head? = some c → p c = false := by
  intro c hc
  cases l with
  | nil => cases hc
  | cons d t =>
    cases hc
    cases hd : p c with
    | false => rfl
    | true =>
      rw [List.dropWhile_cons, if_pos (by simp [hd])] at h
      have hle := length_dropWhile_le p t
      have := congrArg List.length h
      simp at this
      omega

/-- A `dropWhile` whose input has a failing head is the identity. -/
theorem dropWhile_id_of_head {p : Char → Bool} {l : List Char}
    (hne : l ≠ []) (hh : ∀ c, l.head? = some c → p c = false) :
    l.dropWhile p = l := by
  cases l with
  | nil => exact absurd rfl hne
  | cons c t => simp [List.dropWhile_cons, hh c rfl]

/-- A string fixed by `strTrimSpace` has identity `dropWhile`s on both
ends. -/
theorem trim_parts {url : String} (h : strTrimSpace url = url) :
    url.data.dropWhile Char.isWhitespace = url.data ∧
    url.data.reverse.dropWhile Char.isWhitespace = url.data.reverse := by
  have hd : (((url.data.dropWhile Char.isWhitespace).reverse.dropWhile
      Char.isWhitespace).reverse) = url.data := congrArg String.data h
  have h1 : (url.data.dropWhile Char.isWhitespace).length = url.data.length := by
    have l1 := length_dropWhile_le Char.isWhitespace url.data
    have l2 := length_dropWhile_le Char.isWhitespace
      (url.data.dropWhile Char.isWhitespace).reverse
    have hlen : ((url.data.dropWhile Char.isWhitespace).reverse.dropWhile
        Char.isWhitespace).length = url.data.length := by
      have := congrArg List.length hd
      simpa using this
    rw [List.length_reverse] at l2
    omega
  have hA : url.data.dropWhile Char.isWhitespace = url.data :=
    dropWhile_eq_self_of_length h1
  refine ⟨hA, ?_⟩
  rw [hA] at hd
  have h2 : (url.data.reverse.dropWhile Char.isWhitespace).length
      = url.data.reverse.length := by
    have hlen := congrArg List.length hd
    simp at hlen ⊢
    omega
  exact dropWhile_eq_self_of_length h2

/-- A string whose two end characters are not whitespace is fixed by
`strTrimSpace`. -/
theorem strTrimSpace_id {s : String} (hne : s.data ≠ [])
    (hh : ∀ c, s.data.head? = some c → Char.isWhitespace c = false)
    (hl : ∀ c, s.data.reverse.head? = some c → Char.isWhitespace c = false) :
    strTrimSpace s = s := by
  unfold strTrimSpace
  rw [dropWhile_id_of_head hne hh,
    dropWhile_id_of_head (by simpa using hne) hl]
  apply String.ext
  simp

/-- A one-character prefix test only looks at the head. -/
theorem isPrefixOf_single_append (c : Char) (l X : List Char) (hne : l ≠ []) :
    [c].isPrefixOf (l ++ X) = [c].isPrefixOf l := by
  cases l with
  | nil => exact absurd rfl hne
  | cons d t => simp [List.isPrefixOf]

/-- `strings.Index` finds a `|` right after a bar-free prefix. -/
theorem segIndex_bar (nm : List Char) (rest : List Char)
    (h : ∀ c ∈ nm, ¬(c = '|')) :
    segIndex ['|'] (nm ++ '|' :: rest) = some nm.length := by
  induction nm with
  | nil => simp [segIndex, List.isPrefixOf]
  | cons c t ih =>
    have hc : ¬(c = '|') := h c (List.mem_cons_self _ _)
    rw [List.cons_append]
    unfold segIndex
    rw [if_neg (by simp [List.isPrefixOf]; intro he; exact absurd he.symm hc)]
    rw [ih fun d hd => h d (List.mem_cons_of_mem _ hd)]
    rfl

/-- Rebuilding a string from its characters is the identity. -/
theorem mk_data (s : String) : String.mk s.data = s := by
  cases s
  rfl

/-- On a trim-fixed non-empty candidate, normalization only supplies the
trailing slash, and the result is again trim-fixed and non-empty. -/
theorem normalizeURL_of_trim_fixed {url : String} (hne : url.data ≠ [])
    (ht : strTrimSpace url = url) :
    normalizeURL url = (if strHasSuf url "/" then url else url ++ "/")
    ∧ strTrimSpace (if strHasSuf url "/" then url else url ++ "/")
        = (if strHasSuf url "/" then url else url ++ "/")
    ∧ (if strHasSuf url "/" then url else url ++ "/").data ≠ [] := by
  refine ⟨?_, ?_, ?_⟩
  · unfold normalizeURL
    rw [ht]
  · by_cases hs : strHasSuf url "/"
    · rw [if_pos hs, ht]
    · rw [if_neg hs]
      have hparts := trim_parts ht
      apply strTrimSpace_id
      · simp [String.data_append, hne]
      · intro c hc
        rw [String.data_append] at hc
        have hcases : url.data.head? = some c ∨ (url.data = [] ∧ '/' = c) := by
          simpa using hc
        rcases hcases with hc' | ⟨hnil, _⟩
        · exact head_false_of_dropWhile_id hparts.1 c hc'
        · exact absurd hnil hne
      · intro c hc
        rw [String.data_append] at hc
        simp at hc
        subst hc
        decide
  · by_cases hs : strHasSuf url "/"
    · rw [if_pos hs]
      exact hne
    · rw [if_neg hs]
      simp [String.data_append, hne]

/-- Resolution of a normalized `name|URL` candidate with a bar-free,
trim-fixed name and a trim-fixed non-empty URL: the three known adapter
names select their adapter with the URL part — never consulting the
well-known-URL table — and an unknown name resolves to nothing. -/
theorem resolveCandidate_split (nm url' : String)
    (hbar : ∀ c ∈ nm.data, ¬(c = '|')) (hnm : nm.data ≠ [])
    (htn : strTrimSpace nm = nm)
    (hne : url'.data ≠ []) (ht : strTrimSpace url' = url') :
    resolveCandidate ((nm ++ "|") ++ url') =
      (if nm = "official" then some (.official, url')
       else if nm = "fancyindex" then some (.fancyindex, url')
       else if nm = "autoindex" then some (.autoindex, url')
       else none) := by
  have hdata : ((nm ++ "|") ++ url').data = nm.data ++ '|' :: url'.data := by
    simp [String.data_append]
  have hidx : strIndex ((nm ++ "|") ++ url') "|" = some nm.data.length := by
    unfold strIndex
    rw [hdata]
    exact segIndex_bar nm.data url'.data hbar
  have hlen : ((nm ++ "|") ++ url').data.length
      = nm.data.length + 1 + url'.data.length := by
    rw [hdata]
    simp
    omega
  have hurlpos : 1 ≤ url'.data.length := by
    cases h : url'.data with
    | nil => exact absurd h hne
    | cons c t => simp [h]
  have hnmpos : 1 ≤ nm.data.length := by
    cases h : nm.data with
    | nil => exact absurd h hnm
    | cons c t => simp [h]
  have hcond : 0 < nm.data.length
      ∧ nm.data.length < ((nm ++ "|") ++ url').data.length - 1 := by
    constructor
    · omega
    · omega
  have htake : ((nm ++ "|") ++ url').data.take nm.data.length = nm.data := by
    rw [hdata]
    exact List.take_left' rfl
  have hdrop : ((nm ++ "|") ++ url').data.drop (nm.data.length + 1) = url'.data := by
    rw [hdata, show nm.data ++ '|' :: url'.data
      = (nm.data ++ ['|']) ++ url'.data by simp]
    exact List.drop_left' (by simp)
  unfold resolveCandidate
  simp only [hidx]
  rw [if_pos hcond, htake, hdrop, mk_data, mk_data, htn, ht]

/-- The head of an append with a non-empty left part. -/
theorem head?_append_of_ne {l₁ l₂ : List Char} (h : l₁ ≠ []) :
    (l₁ ++ l₂).head? = l₁.head? := by
  cases l₁ with
  | nil => exact absurd rfl h
  | cons a t => rfl

/-- Normalizing a `name|URL` candidate built from a known adapter name and
a trim-fixed non-empty URL appends the trailing slash to the URL part. -/
theorem normalizeURL_named_candidate (k : CollectorKind) (url : String)
    (hne : url.data ≠ []) (ht : strTrimSpace url = url) :
    normalizeURL ((collectorName k ++ "|") ++ url)
      = (collectorName k ++ "|") ++ (if strHasSuf url "/" then url else url ++ "/") := by
  have hnm1 : (collectorName k).data ≠ [] := by cases k <;> decide
  have hnmh : ∀ c, (collectorName k).data.head? = some c →
      Char.isWhitespace c = false := by cases k <;> decide
  have hdata : ((collectorName k ++ "|") ++ url).data
      = (collectorName k).data ++ '|' :: url.data := by
    simp [String.data_append]
  have hparts := trim_parts ht
  have hrevne : url.data.reverse ≠ [] := by simpa using hne
  have hrev : ((collectorName k ++ "|") ++ url).data.reverse
      = url.data.reverse ++ ('|' :: (collectorName k).data.reverse) := by
    rw [hdata]
    simp
  have htrim : strTrimSpace ((collectorName k ++ "|") ++ url)
      = (collectorName k ++ "|") ++ url := by
    apply strTrimSpace_id
    · rw [hdata]
      simp [hnm1]
    · intro c hc
      rw [hdata, head?_append_of_ne hnm1] at hc
      exact hnmh c hc
    · intro c hc
      rw [hrev, head?_append_of_ne hrevne] at hc
      exact head_false_of_dropWhile_id hparts.2 c hc
  have hsuf : strHasSuf ((collectorName k ++ "|") ++ url) "/" = strHasSuf url "/" := by
    unfold strHasSuf
    rw [hrev]
    exact isPrefixOf_single_append '/' url.data.reverse _ hrevne
  unfold normalizeURL
  rw [htrim]
  show (if strHasSuf ((collectorName k ++ "|") ++ url) "/" = true
      then (collectorName k ++ "|") ++ url
      else ((collectorName k ++ "|") ++ url) ++ "/")
    = (collectorName k ++ "|") ++ (if strHasSuf url "/" = true then url else url ++ "/")
  rw [hsuf]
  by_cases hs : strHasSuf url "/" = true
  · rw [if_pos hs, if_pos hs]
  · rw [if_neg hs, if_neg hs]
    apply String.ext
    simp [String.data_append]

/-- A scan over candidates none of which resolves normalizes every
element and resolves nothing. -/
theorem collectLoop_none_of_all (l : List String)
    (h : ∀ u ∈ l, resolveCandidate (normalizeURL u) = none) :
    collectLoop l = (none, l.map normalizeURL) := by
  induction l with
  | nil => rfl
  | cons u rest ih =>
    unfold collectLoop
    simp only [h u (List.mem_cons_self _ _)]
    rw [ih fun v hv => h v (List.mem_cons_of_mem _ hv)]
    rfl

/-- The state contract of the candidate loop: with no resolution every
element is normalized; with a resolution at index `i`, the elements up to
and including `i` are normalized, every earlier candidate failed to
resolve, and the elements after `i` are untouched. -/
theorem collectLoop_state (l : List String) :
    ((collectLoop l).1 = none → (collectLoop l).2 = l.map normalizeURL)
    ∧ (∀ r, (collectLoop l).1 = some r →
        ∃ i, i < l.length
          ∧ (collectLoop l).2 = (l.take (i + 1)).map normalizeURL ++ l.drop (i + 1)
          ∧ resolveCandidate (normalizeURL (l.getD i "")) = some r
          ∧ ∀ j, j < i → resolveCandidate (normalizeURL (l.getD j "")) = none) := by
  induction l with
  | nil =>
    constructor
    · intro _
      rfl
    · intro r hr
      cases hr
  | cons u rest ih =>
    constructor
    · intro hnone
      cases hres : resolveCandidate (normalizeURL u) with
      | some r =>
        simp only [collectLoop, hres] at hnone
        simp at hnone
      | none =>
        simp only [collectLoop, hres] at hnone ⊢
        rw [List.map_cons, ih.1 hnone]
    · intro r hr
      cases hres : resolveCandidate (normalizeURL u) with
      | some r0 =>
        simp only [collectLoop, hres] at hr ⊢
        cases hr
        exact ⟨0, by simp, by simp, by simpa using hres,
          fun j hj => absurd hj (by omega)⟩
      | none =>
        simp only [collectLoop, hres] at hr ⊢
        obtain ⟨i, hi, hst, hres', hprev⟩ := ih.2 r hr
        refine ⟨i + 1, by simpa using Nat.succ_lt_succ hi, ?_,
          by simpa using hres', ?_⟩
        · simp only [List.take_succ_cons, List.map_cons, List.drop_succ_cons]
          rw [hst]
          simp
        · intro j hj
          cases j with
          | zero => simpa using hres
          | succ j' => simpa using hprev j' (by omega)

/-- Outside the empty-input default, `newCollector` is the candidate loop
with its result classified. -/
theorem newCollector_eq (urls : List String) (h : ¬(urls = [] ∨ urls = [""])) :
    newCollector urls =
      ((match (collectLoop urls).1 with
        | some r => .ok r
        | none => .error .collectorNotFound), (collectLoop urls).2) := by
  unfold newCollector
  rw [if_neg h]
  cases hcl : collectLoop urls with
  | mk fst snd => cases fst <;> simp

/-- **C7**: `NewCollector` resolves candidates left to right after
normalizing each (trim plus trailing slash): an explicit `official|`,
`fancyindex|` or `autoindex|` prefix selects that adapter with the
remainder as URL regardless of the well-known-URL table; otherwise a
candidate selects only by exact match against the fixed table; empty
input defaults to the canonical official URL; and when no candidate
resolves, `CollectorNotFound` is returned. -/
theorem C7_collector_selection :
    ((newCollector []).1 = .ok (.official, OfficialDownloadPageURL)
      ∧ (newCollector [""]).1 = .ok (.official, OfficialDownloadPageURL))
    ∧ (∀ (k : CollectorKind) (url : String) (rest : List String),
        url.data ≠ [] → strTrimSpace url = url →
        (newCollector ((collectorName k ++ "|" ++ url) :: rest)).1
          = .ok (k, if strHasSuf url "/" then url else url ++ "/"))
    ∧ ((newCollector [OfficialDownloadPageURL]).1
          = .ok (.official, OfficialDownloadPageURL)
      ∧ (newCollector [OriginalOfficialDownloadPageURL]).1
          = .ok (.official, OriginalOfficialDownloadPageURL)
      ∧ (newCollector [CNDownloadPageURL]).1 = .ok (.official, CNDownloadPageURL)
      ∧ (newCollector [AliYunDownloadPageURL]).1
          = .ok (.fancyindex, AliYunDownloadPageURL)
      ∧ (newCollector [HUSTDownloadPageURL]).1
          = .ok (.fancyindex, HUSTDownloadPageURL)
      ∧ (newCollector [NJUDownloadPageURL]).1 = .ok (.fancyindex, NJUDownloadPageURL)
      ∧ (newCollector [USTCDownloadPageURL]).1 = .ok (.autoindex, USTCDownloadPageURL))
    ∧ (∀ u rest, resolveCandidate (normalizeURL u) = none →
        rest ≠ [] → rest ≠ [""] →
        (newCollector (u :: rest)).1 = (newCollector rest).1)
    ∧ (∀ urls, urls ≠ [] → urls ≠ [""] →
        (∀ u ∈ urls, resolveCandidate (normalizeURL u) = none) →
        (newCollector urls).1 = .error .collectorNotFound) := by
  refine ⟨⟨rfl, rfl⟩, ?_, ⟨rfl, rfl, rfl, rfl, rfl, rfl, rfl⟩, ?_, ?_⟩
  · intro k url rest hne ht
    have hnorm := normalizeURL_named_candidate k url hne ht
    have hfix := normalizeURL_of_trim_fixed hne ht
    have hres : resolveCandidate (normalizeURL ((collectorName k ++ "|") ++ url))
        = some (k, if strHasSuf url "/" then url else url ++ "/") := by
      rw [hnorm]
      have := resolveCandidate_split (collectorName k)
        (if strHasSuf url "/" then url else url ++ "/")
        (by cases k <;> decide) (by cases k <;> decide) (by cases k <;> decide)
        hfix.2.2 hfix.2.1
      rw [this]
      cases k <;> simp [collectorName]
    have hcand_ne : ¬((collectorName k ++ "|" ++ url) :: rest = []
        ∨ (collectorName k ++ "|" ++ url) :: rest = [""]) := by
      rintro (h | h)
      · cases h
      · injection h with hemp hrest
        have := congrArg String.data hemp
        rw [String.data_append, String.data_append] at this
        simp at this
    rw [newCollector_eq _ hcand_ne]
    simp only [collectLoop, hres]
  · intro u rest hres hr1 hr2
    have h1 : ¬(u :: rest = [] ∨ u :: rest = [""]) := by
      simp only [not_or]
      exact ⟨by simp, by simp [hr1]⟩
    have h2 : ¬(rest = [] ∨ rest = [""]) := by
      simp [hr1, hr2]
    rw [newCollector_eq _ h1, newCollector_eq _ h2]
    simp only [collectLoop, hres]
  · intro urls h1 h2 hall
    rw [newCollector_eq _ (by simp [h1, h2]),
      collectLoop_none_of_all urls hall]

/-- Witness for **C7**: the explicit-name candidate
`fancyindex|https://mirrors.hust.edu.cn/golang/` end to end, skipping over
a non-resolving candidate, and `CollectorNotFound` for an unknown bare
URL. -/
theorem C7_collector_selection_witness :
    (newCollector ["fancyindex|https://mirrors.hust.edu.cn/golang/"]).1
      = .ok (.fancyindex, "https://mirrors.hust.edu.cn/golang/")
    ∧ (newCollector ["bogus", "https://go.dev/dl/"]).1
        = (newCollector ["https://go.dev/dl/"]).1
    ∧ (newCollector ["hello world"]).1 = .error .collectorNotFound := by
  refine ⟨?_, ?_, ?_⟩
  · have h := C7_collector_selection.2.1 .fancyindex
      "https://mirrors.hust.edu.cn/golang/" [] (by decide) (by decide)
    simpa using h
  · exact C7_collector_selection.2.2.2.1 "bogus" ["https://go.dev/dl/"]
      (by decide) (by decide) (by decide)
  · exact C7_collector_selection.2.2.2.2 ["hello world"] (by decide) (by decide)
      (by decide)

/-- **C10**: `NewCollector` mutates its argument slice in place: every
candidate examined before resolution succeeds — or all of them, when none
resolves — is overwritten with its normalized form (whitespace trimmed, a
trailing `/` appended when absent), and the candidates after the first
resolving one are left unchanged.  In the empty-input default branch the
local variable is rebound instead, leaving the caller's slice untouched. -/
theorem C10_newCollector_mutation (urls : List String) :
    ((urls = [] ∨ urls = [""]) → (newCollector urls).2 = urls)
    ∧ (urls ≠ [] → urls ≠ [""] →
        ((newCollector urls).1 = .error .collectorNotFound →
          (newCollector urls).2 = urls.map normalizeURL)
        ∧ (∀ r, (newCollector urls).1 = .ok r →
            ∃ i, i < urls.length
              ∧ (newCollector urls).2
                  = (urls.take (i + 1)).map normalizeURL ++ urls.drop (i + 1)
              ∧ resolveCandidate (normalizeURL (urls.getD i "")) = some r
              ∧ ∀ j, j < i →
                  resolveCandidate (normalizeURL (urls.getD j "")) = none)) := by
  constructor
  · intro h
    unfold newCollector
    rw [if_pos h]
    split <;> rfl
  · intro h1 h2
    have hcond : ¬(urls = [] ∨ urls = [""]) := by simp [h1, h2]
    rw [newCollector_eq _ hcond]
    constructor
    · intro herr
      cases hcl : (collectLoop urls).1 with
      | some r => rw [hcl] at herr; simp at herr
      | none => exact (collectLoop_state urls).1 hcl
    · intro r hok
      cases hcl : (collectLoop urls).1 with
      | some r0 =>
        rw [hcl] at hok
        simp only [Except.ok.injEq] at hok
        subst hok
        exact (collectLoop_state urls).2 r0 hcl
      | none => rw [hcl] at hok; simp at hok

/-- Witness for **C10**: both mutation shapes on concrete inputs — the
untouched default branch and a two-candidate list resolving at index 1. -/
theorem C10_newCollector_mutation_witness :
    (newCollector [""]).2 = [""]
    ∧ (∃ i, i < (["bogus", "https://go.dev/dl"] : List String).length
        ∧ (newCollector ["bogus", "https://go.dev/dl"]).2
            = ((["bogus", "https://go.dev/dl"] : List String).take (i + 1)).map
                normalizeURL
              ++ (["bogus", "https://go.dev/dl"] : List String).drop (i + 1)
        ∧ resolveCandidate (normalizeURL ((["bogus", "https://go.dev/dl"] :
            List String).getD i "")) = some (.official, "https://go.dev/dl/")
        ∧ ∀ j, j < i → resolveCandidate (normalizeURL ((["bogus",
            "https://go.dev/dl"] : List String).getD j "")) = none) :=
  ⟨(C10_newCollector_mutation [""]).1 (Or.inr rfl),
   ((C10_newCollector_mutation ["bogus", "https://go.dev/dl"]).2
      (by decide) (by decide)).2 (.official, "https://go.dev/dl/") rfl⟩

end G
